import Mathlib

/-!
Verification of the component dependency resolution and installation queue of
the astracli `add` command (src/commands/add.js, lines 357 to 437), together
with the import-path rewrite applied to copied files (lines 398 to 417).

The loop is embedded as a fuel-indexed transition function over a state made
of the install queue, the installed set, the failed set, and a log of the
per-component install attempts.  The per-component install attempt
(existence check, destination check, copy, rewrite) is abstracted as a step
function returning one of four outcomes, matching the four exits of the
try block in the source; a concrete filesystem instance is given further
below for the frame claims.
-/

/-- Outcome of one install attempt for a component, following the branches of
the loop body in src/commands/add.js: source directory missing (line 378),
destination already exists without the force flag (line 388), successful
copy and rewrite (line 420), or an error thrown during copy (line 432). -/
inductive InstallResult where
  | notFound
  | alreadyExists
  | installedOk
  | copyFailed
deriving DecidableEq, Repr

/-- A dependency map: association list from component name to its ordered
list of dependency names, as in COMPONENT_DEPENDENCIES (add.js line 15). -/
abbrev DepMap : Type := List (String × List String)

/-- Lookup of COMPONENT_DEPENDENCIES[component] with fallback to the empty
list, as in `COMPONENT_DEPENDENCIES[component] || []` (add.js line 424). -/
def depsOf : DepMap → String → List String
  | [], _ => []
  | p :: rest, c => if p.1 = c then p.2 else depsOf rest c

/-- The dependency map shipped in the source: Accordion depends on
Collapsible (add.js lines 15 to 17). -/
def COMPONENT_DEPENDENCIES : DepMap := [("Accordion", ["Collapsible"])]

/-- State of the resolution loop: the pending install queue, the installed
set, the failed set (both kept as insertion-ordered lists, as JS Sets
iterate in insertion order), a log of each performed install attempt with
its outcome, and the environment threaded through the install attempts. -/
structure St (σ : Type) where
  queue : List String
  installed : List String
  failed : List String
  log : List (String × InstallResult)
  env : σ

/-- Appending the dependencies of a freshly installed component to the back
of the queue, skipping any dependency already installed or already present
in the queue (add.js lines 425 to 429).  The fold mirrors the JS for loop:
each push is visible to the membership test of the following iterations. -/
def enqueueDeps (installed : List String) (deps : List String)
    (queue : List String) : List String :=
  deps.foldl (fun q d => if d ∈ installed ∨ d ∈ q then q else q ++ [d]) queue

/-- One iteration of the while loop body (add.js lines 362 to 436) applied to
the dequeued component c with remaining queue rest: skip when already
processed (line 366), otherwise perform the install attempt and update the
sets; only a fresh successful install enqueues dependencies. -/
def procOne {σ : Type} (m : DepMap) (step : σ → String → InstallResult × σ)
    (st : St σ) (c : String) (rest : List String) : St σ :=
  if c ∈ st.installed ∨ c ∈ st.failed then
    { st with queue := rest }
  else
    match step st.env c with
    | (InstallResult.notFound, e) =>
        ⟨rest, st.installed, st.failed ++ [c],
          st.log ++ [(c, InstallResult.notFound)], e⟩
    | (InstallResult.alreadyExists, e) =>
        ⟨rest, st.installed ++ [c], st.failed,
          st.log ++ [(c, InstallResult.alreadyExists)], e⟩
    | (InstallResult.installedOk, e) =>
        ⟨enqueueDeps (st.installed ++ [c]) (depsOf m c) rest,
          st.installed ++ [c], st.failed,
          st.log ++ [(c, InstallResult.installedOk)], e⟩
    | (InstallResult.copyFailed, e) =>
        ⟨rest, st.installed, st.failed ++ [c],
          st.log ++ [(c, InstallResult.copyFailed)], e⟩

/-- Fuel-indexed run of the while loop of add.js lines 362 to 437: dequeue
the front component and process it until the queue is empty (or the fuel
runs out; the fuel used by the top-level entry point is proved sufficient
below). -/
def runLoop {σ : Type} (m : DepMap) (step : σ → String → InstallResult × σ) :
    Nat → St σ → St σ
  | 0, st => st
  | n + 1, st =>
    match st.queue with
    | [] => st
    | c :: rest => runLoop m step n (procOne m step st c rest)

/-- Concatenation of all dependency lists of the map; every name that can
ever be enqueued by the loop other than a requested one occurs here. -/
def allDeps : DepMap → List String
  | [] => []
  | p :: rest => p.2 ++ allDeps rest

/-- Names that can ever sit in the install queue: the requested list plus
every name occurring in some dependency list of the map. -/
def allV (m : DepMap) (requested : List String) : List String :=
  requested ++ allDeps m

/-- Weight of a component for the termination measure: one for its own
processing plus one per dependency it may enqueue. -/
def wdep (m : DepMap) (c : String) : Nat := 1 + (depsOf m c).length

/-- Potential of the not-yet-processed components among the candidate list V:
sum of the weights of the members of V in neither the installed nor the
failed set. -/
def pot (m : DepMap) (inst fl : List String) : List String → Nat
  | [] => 0
  | c :: V => (if c ∈ inst ∨ c ∈ fl then 0 else wdep m c) + pot m inst fl V

/-- Termination measure of a loop state: queue length plus remaining
potential over the candidate list V. -/
def msr (m : DepMap) (V : List String) (st : St σ) : Nat :=
  st.queue.length + pot m st.installed st.failed V

/-- Initial state of one invocation of the add command: queue seeded with
the requested components, empty installed and failed sets (add.js lines
357 to 359). -/
def initSt {σ : Type} (requested : List String) (env0 : σ) : St σ :=
  ⟨requested, [], [], [], env0⟩

/-- The resolution pass of the add command: run the loop from the initial
state with fuel given by the termination measure (proved sufficient for the
queue to drain). -/
def addModel {σ : Type} (m : DepMap) (step : σ → String → InstallResult × σ)
    (requested : List String) (env0 : σ) : St σ :=
  runLoop m step (msr m (allV m requested) (initSt requested env0))
    (initSt requested env0)

/-- Install attempt driven by a pure outcome oracle: the environment is
trivial and the outcome of each component is fixed up front. -/
def oStep (o : String → InstallResult) : Unit → String → InstallResult × Unit :=
  fun _ c => (o c, ())

/-- Resolution pass with a pure outcome oracle. -/
def addO (m : DepMap) (o : String → InstallResult)
    (requested : List String) : St Unit :=
  addModel m (oStep o) requested ()

/-- Reachability along dependency edges from the requested set: the closure
described in the spec glossary. -/
inductive Reach (m : DepMap) (req : List String) : String → Prop
  | base {c : String} : c ∈ req → Reach m req c
  | step {c d : String} : Reach m req c → d ∈ depsOf m c → Reach m req d

/-- Invariant of the resolution loop, established for every intermediate
state: the installed and failed sets are disjoint, each component is
logged (attempted) at most once, logged components are settled, every
settled component carries a matching log entry, and the dependencies of
every freshly installed component are settled or still queued. -/
structure GInv (m : DepMap) {σ : Type} (st : St σ) : Prop where
  disj : ∀ c, c ∈ st.installed → c ∉ st.failed
  logNodup : (st.log.map Prod.fst).Nodup
  logDone : ∀ c, c ∈ st.log.map Prod.fst → c ∈ st.installed ∨ c ∈ st.failed
  instLog : ∀ c, c ∈ st.installed →
    ∃ r, (c, r) ∈ st.log ∧
      (r = InstallResult.installedOk ∨ r = InstallResult.alreadyExists)
  flLog : ∀ c, c ∈ st.failed →
    ∃ r, (c, r) ∈ st.log ∧
      (r = InstallResult.notFound ∨ r = InstallResult.copyFailed)
  closed : ∀ c r, (c, r) ∈ st.log → r = InstallResult.installedOk →
    ∀ d, d ∈ depsOf m c →
      d ∈ st.installed ∨ d ∈ st.failed ∨ d ∈ st.queue

/-- Reachability invariant: every name in the queue, installed set, or
failed set is reachable from the requested set. -/
def RInv (m : DepMap) (req : List String) {σ : Type} (st : St σ) : Prop :=
  (∀ x, x ∈ st.queue → Reach m req x) ∧
  (∀ x, x ∈ st.installed → Reach m req x) ∧
  (∀ x, x ∈ st.failed → Reach m req x)

/-- Oracle failing every component: no source exists for any name. -/
def noneOracle : String → InstallResult := fun _ => InstallResult.notFound

/-- Oracle installing every component successfully. -/
def allOkOracle : String → InstallResult := fun _ => InstallResult.installedOk

/-- Oracle reporting every component as already present at the destination. -/
def existsOracle : String → InstallResult := fun _ => InstallResult.alreadyExists

/-- Dependency map for the C2 counterexample: Ghost depends on B. -/
def cexMapC2 : DepMap := [("Ghost", ["B"])]

/-- Dependency map for the C3 and C5 counterexamples. -/
def cexMapC3 : DepMap := [("A", ["B"])]

/-- Oracle for the C5 witness: component X has no source, everything else
installs freshly. -/
def c5Oracle : String → InstallResult :=
  fun s => if s = "X" then InstallResult.notFound else InstallResult.installedOk

/-- Dependency map for the C5 counterexample: C depends on Y. -/
def cexMapC5 : DepMap := [("C", ["Y"])]

/-- Oracle for the C5 counterexample: X has no source, everything else is
already present at the destination. -/
def cexOracleC5 : String → InstallResult :=
  fun s => if s = "X" then InstallResult.notFound else InstallResult.alreadyExists

/-- Apostrophe character (codepoint 39), one of the two quote characters of
the regex character classes in add.js lines 406 and 412. -/
def squote : Char := Char.ofNat 39

/-- Double quote character (codepoint 34). -/
def dquote : Char := Char.ofNat 34

/-- Membership in the quote character class of the two regexes. -/
def isQuote (c : Char) : Prop := c = squote ∨ c = dquote

instance : DecidablePred isQuote :=
  fun c => inferInstanceAs (Decidable (c = squote ∨ c = dquote))

/-- Literal prefix of both import patterns. -/
def litFrom : List Char := "from ".toList

/-- Literal body of the lib-utils pattern (add.js line 406). -/
def litLib : List Char := "@/lib/utils".toList

/-- Literal body of the components-ui pattern (add.js line 412). -/
def litUi : List Char := "@/components/ui/".toList

/-- Strip a literal character sequence from the front of the input,
returning the remainder on full match. -/
def stripLit : List Char → List Char → Option (List Char)
  | [], s => some s
  | _ :: _, [] => none
  | c :: l, d :: s => if d = c then stripLit l s else none

/-- Strip one quote character from the front of the input. -/
def stripQuote : List Char → Option (List Char)
  | [] => none
  | c :: s => if isQuote c then some s else none

/-- Consume the remainder of a non-quote run up to and including the first
quote character; fails at end of input with no closing quote. -/
def grabTail : List Char → Option (List Char × List Char)
  | [] => none
  | c :: s =>
    if isQuote c then some ([], s)
    else
      match grabTail s with
      | none => none
      | some p => some (c :: p.1, p.2)

/-- Greedy match of the group of one or more non-quote characters followed
by a closing quote, as in the second regex of add.js line 412; returns the
group and the remainder.  A greedy run over a negated quote class followed
by a quote class matches exactly up to the first quote, with no shorter
backtracking alternative. -/
def grabName : List Char → Option (List Char × List Char)
  | [] => none
  | c :: s =>
    if isQuote c then none
    else
      match grabTail s with
      | none => none
      | some p => some (c :: p.1, p.2)

/-- Match of the first regex (add.js lines 405 to 408) at the head of the
input: the literal from-space, a quote, the literal lib-utils path, and a
quote; returns the remainder after the match. -/
def tryMatch1 (s : List Char) : Option (List Char) :=
  match stripLit litFrom s with
  | none => none
  | some s1 =>
    match stripQuote s1 with
    | none => none
    | some s2 =>
      match stripLit litLib s2 with
      | none => none
      | some s3 => stripQuote s3

/-- Match of the second regex (add.js lines 411 to 414) at the head of the
input; returns the captured component name and the remainder. -/
def tryMatch2 (s : List Char) : Option (List Char × List Char) :=
  match stripLit litFrom s with
  | none => none
  | some s1 =>
    match stripQuote s1 with
    | none => none
    | some s2 =>
      match stripLit litUi s2 with
      | none => none
      | some s3 => grabName s3

/-- Replacement text of the first substitution: the from clause with the
lib-utils path in apostrophes. -/
def repl1 : List Char := litFrom ++ squote :: litLib ++ [squote]

/-- Replacement text of the second substitution with captured group nm. -/
def repl2 (nm : List Char) : List Char :=
  litFrom ++ squote :: litUi ++ nm ++ [squote]

/-- Fuel-indexed global-replace scan for the first regex: at each position
emit the replacement and skip the match, or emit one character and move
on, exactly as a global non-overlapping regex replace proceeds. -/
def rep1 : Nat → List Char → List Char
  | 0, _ => []
  | n + 1, s =>
    match tryMatch1 s with
    | some r => repl1 ++ rep1 n r
    | none =>
      match s with
      | [] => []
      | c :: t => c :: rep1 n t

/-- Global replace of the first regex (the fuel, one unit per input
character, is proved sufficient below). -/
def replace1 (s : List Char) : List Char := rep1 s.length s

/-- Fuel-indexed global-replace scan for the second regex. -/
def rep2 : Nat → List Char → List Char
  | 0, _ => []
  | n + 1, s =>
    match tryMatch2 s with
    | some p => repl2 p.1 ++ rep2 n p.2
    | none =>
      match s with
      | [] => []
      | c :: t => c :: rep2 n t

/-- Global replace of the second regex. -/
def replace2 (s : List Char) : List Char := rep2 s.length s

/-- The import-path rewrite applied to the content of each copied .ts or
.tsx file (add.js lines 405 to 414): the first replace followed by the
second. -/
def rewriteContent (s : String) : String := ⟨replace2 (replace1 s.data)⟩

/-- Character simulation relation: the output character equals the input
character, or a double quote was normalised to an apostrophe.  Both
substitutions only change characters in this way. -/
def chOk (a b : Char) : Prop := b = a ∨ (a = dquote ∧ b = squote)

/-- Pointwise simulation of two character lists under chOk. -/
inductive Sim : List Char → List Char → Prop
  | nil : Sim [] []
  | cons {a b : Char} {u v : List Char} :
      chOk a b → Sim u v → Sim (a :: u) (b :: v)

/-- Files of one component directory: file name to content. -/
abbrev CompFiles : Type := List (String × String)

/-- A filesystem of component directories: component name to files. -/
abbrev FS : Type := List (String × CompFiles)

/-- Directory lookup by component name. -/
def fsLookup : FS → String → Option CompFiles
  | [], _ => none
  | p :: rest, c => if p.1 = c then some p.2 else fsLookup rest c

/-- Replace or create the directory of a component. -/
def fsSet : FS → String → CompFiles → FS
  | [], c, files => [(c, files)]
  | p :: rest, c, files =>
    if p.1 = c then (c, files) :: rest else p :: fsSet rest c files

/-- File filter of the rewrite loop (add.js line 400): only .tsx and .ts
files are rewritten. -/
def endsWithTs (fileName : String) : Bool :=
  fileName.endsWith ".tsx" || fileName.endsWith ".ts"

/-- Rewrite of one destination file: .ts and .tsx contents pass through
rewriteContent, other files are untouched. -/
def rewriteFile (p : String × String) : String × String :=
  if endsWithTs p.1 then (p.1, rewriteContent p.2) else p

/-- Rewrite of every file of a copied component directory (the readdir loop
of add.js lines 398 to 418). -/
def rewriteFiles (files : CompFiles) : CompFiles := files.map rewriteFile

/-- Result of fs.copy into an existing directory: copied files overwrite
same-named files, other existing files remain. -/
def mergeFiles (old new : CompFiles) : CompFiles :=
  old.filter (fun p => !((new.map Prod.fst).contains p.1)) ++ new

/-- The concrete install attempt over the modelled filesystem, following
add.js lines 376 to 418: fail when the component has no source directory
(line 378); succeed without touching the filesystem when the destination
directory exists and force is not set (line 388); otherwise copy the
source files over the destination and rewrite every .ts/.tsx file found
there. -/
def fsStep (src : FS) (force : Bool) : FS → String → InstallResult × FS :=
  fun dest c =>
    match fsLookup src c with
    | none => (InstallResult.notFound, dest)
    | some files =>
      if (fsLookup dest c).isSome ∧ force = false then
        (InstallResult.alreadyExists, dest)
      else
        (InstallResult.installedOk,
          fsSet dest c
            (rewriteFiles (mergeFiles ((fsLookup dest c).getD []) files)))

/-- Demo source files for the C7 witness. -/
def demoFiles : CompFiles := [("Button.tsx", "demo")]

/-- Demo source filesystem for the C7 witness. -/
def srcDemo : FS := [("Button", demoFiles)]

/-- Demo destination filesystem for the C7 witness: Button already exists. -/
def destDemo : FS := [("Button", [("Button.tsx", "old")])]


/-! ### Basic equations of the loop -/

theorem runLoop_zero {σ : Type} (m : DepMap) (step : σ → String → InstallResult × σ)
    (st : St σ) : runLoop m step 0 st = st := rfl

theorem runLoop_succ_nil {σ : Type} (m : DepMap) (step : σ → String → InstallResult × σ)
    (n : Nat) (st : St σ) (hq : st.queue = []) :
    runLoop m step (n + 1) st = st := by
  simp only [runLoop, hq]

theorem runLoop_succ_cons {σ : Type} (m : DepMap) (step : σ → String → InstallResult × σ)
    (n : Nat) (st : St σ) (c : String) (rest : List String)
    (hq : st.queue = c :: rest) :
    runLoop m step (n + 1) st = runLoop m step n (procOne m step st c rest) := by
  simp only [runLoop, hq]

theorem runLoop_nil {σ : Type} (m : DepMap) (step : σ → String → InstallResult × σ)
    (n : Nat) (st : St σ) (hq : st.queue = []) :
    runLoop m step n st = st := by
  cases n with
  | zero => rfl
  | succ n => exact runLoop_succ_nil m step n st hq

theorem procOne_skip {σ : Type} (m : DepMap) (step : σ → String → InstallResult × σ)
    (st : St σ) (c : String) (rest : List String)
    (h : c ∈ st.installed ∨ c ∈ st.failed) :
    procOne m step st c rest = { st with queue := rest } := by
  simp only [procOne, if_pos h]

theorem procOne_notFound {σ : Type} (m : DepMap) (step : σ → String → InstallResult × σ)
    (st : St σ) (c : String) (rest : List String) (e : σ)
    (h : ¬(c ∈ st.installed ∨ c ∈ st.failed))
    (hs : step st.env c = (InstallResult.notFound, e)) :
    procOne m step st c rest =
      ⟨rest, st.installed, st.failed ++ [c],
        st.log ++ [(c, InstallResult.notFound)], e⟩ := by
  simp only [procOne, if_neg h, hs]

theorem procOne_alreadyExists {σ : Type} (m : DepMap) (step : σ → String → InstallResult × σ)
    (st : St σ) (c : String) (rest : List String) (e : σ)
    (h : ¬(c ∈ st.installed ∨ c ∈ st.failed))
    (hs : step st.env c = (InstallResult.alreadyExists, e)) :
    procOne m step st c rest =
      ⟨rest, st.installed ++ [c], st.failed,
        st.log ++ [(c, InstallResult.alreadyExists)], e⟩ := by
  simp only [procOne, if_neg h, hs]

theorem procOne_installedOk {σ : Type} (m : DepMap) (step : σ → String → InstallResult × σ)
    (st : St σ) (c : String) (rest : List String) (e : σ)
    (h : ¬(c ∈ st.installed ∨ c ∈ st.failed))
    (hs : step st.env c = (InstallResult.installedOk, e)) :
    procOne m step st c rest =
      ⟨enqueueDeps (st.installed ++ [c]) (depsOf m c) rest,
        st.installed ++ [c], st.failed,
        st.log ++ [(c, InstallResult.installedOk)], e⟩ := by
  simp only [procOne, if_neg h, hs]

theorem procOne_copyFailed {σ : Type} (m : DepMap) (step : σ → String → InstallResult × σ)
    (st : St σ) (c : String) (rest : List String) (e : σ)
    (h : ¬(c ∈ st.installed ∨ c ∈ st.failed))
    (hs : step st.env c = (InstallResult.copyFailed, e)) :
    procOne m step st c rest =
      ⟨rest, st.installed, st.failed ++ [c],
        st.log ++ [(c, InstallResult.copyFailed)], e⟩ := by
  simp only [procOne, if_neg h, hs]

/-! ### Lemmas about enqueueDeps, depsOf, and the termination measure -/

theorem enqueueDeps_queue_sub (installed deps : List String) :
    ∀ q x, x ∈ q → x ∈ enqueueDeps installed deps q := by
  induction deps with
  | nil => intro q x hx; exact hx
  | cons d ds ih =>
    intro q x hx
    simp only [enqueueDeps, List.foldl_cons]
    by_cases hd : d ∈ installed ∨ d ∈ q
    · rw [if_pos hd]; exact ih q x hx
    · rw [if_neg hd]
      exact ih (q ++ [d]) x (List.mem_append_left _ hx)

theorem enqueueDeps_mem (installed deps : List String) :
    ∀ q x, x ∈ enqueueDeps installed deps q → x ∈ q ∨ x ∈ deps := by
  induction deps with
  | nil => intro q x hx; exact Or.inl hx
  | cons d ds ih =>
    intro q x hx
    simp only [enqueueDeps, List.foldl_cons] at hx
    by_cases hd : d ∈ installed ∨ d ∈ q
    · rw [if_pos hd] at hx
      rcases ih q x hx with h | h
      · exact Or.inl h
      · exact Or.inr (List.mem_cons_of_mem _ h)
    · rw [if_neg hd] at hx
      rcases ih (q ++ [d]) x hx with h | h
      · rcases List.mem_append.mp h with h | h
        · exact Or.inl h
        · exact Or.inr (List.mem_cons.mpr (Or.inl (List.mem_singleton.mp h)))
      · exact Or.inr (List.mem_cons_of_mem _ h)

theorem enqueueDeps_covers (installed deps : List String) :
    ∀ q d, d ∈ deps → d ∈ installed ∨ d ∈ enqueueDeps installed deps q := by
  induction deps with
  | nil => intro q d hd; cases hd
  | cons d0 ds ih =>
    intro q d hd
    simp only [enqueueDeps, List.foldl_cons]
    rcases List.mem_cons.mp hd with rfl | hd
    · by_cases h0 : d ∈ installed ∨ d ∈ q
      · rcases h0 with h0 | h0
        · exact Or.inl h0
        · rw [if_pos (Or.inr h0)]
          exact Or.inr (enqueueDeps_queue_sub installed ds q d h0)
      · rw [if_neg h0]
        exact Or.inr (enqueueDeps_queue_sub installed ds (q ++ [d]) d
          (List.mem_append_right _ (List.mem_singleton.mpr rfl)))
    · by_cases h0 : d0 ∈ installed ∨ d0 ∈ q
      · rw [if_pos h0]; exact ih q d hd
      · rw [if_neg h0]; exact ih (q ++ [d0]) d hd

theorem enqueueDeps_length (installed deps : List String) :
    ∀ q, (enqueueDeps installed deps q).length ≤ q.length + deps.length := by
  induction deps with
  | nil => intro q; simp [enqueueDeps]
  | cons d ds ih =>
    intro q
    simp only [enqueueDeps, List.foldl_cons, List.length_cons]
    by_cases hd : d ∈ installed ∨ d ∈ q
    · rw [if_pos hd]
      exact Nat.le_trans (ih q) (by omega)
    · rw [if_neg hd]
      have := ih (q ++ [d])
      simp only [List.length_append, List.length_singleton] at this
      exact Nat.le_trans this (by omega)

theorem depsOf_sub_allDeps (m : DepMap) (c d : String) (hd : d ∈ depsOf m c) :
    d ∈ allDeps m := by
  induction m with
  | nil => cases hd
  | cons p rest ih =>
    simp only [depsOf] at hd
    simp only [allDeps]
    by_cases hp : p.1 = c
    · rw [if_pos hp] at hd; exact List.mem_append_left _ hd
    · rw [if_neg hp] at hd; exact List.mem_append_right _ (ih hd)

theorem pot_le_inst (m : DepMap) (inst fl : List String) (c : String) :
    ∀ V, pot m (inst ++ [c]) fl V ≤ pot m inst fl V := by
  intro V
  induction V with
  | nil => exact Nat.le_refl _
  | cons x V ih =>
    simp only [pot]
    by_cases hx : x ∈ inst ∨ x ∈ fl
    · have hx' : x ∈ inst ++ [c] ∨ x ∈ fl := by
        rcases hx with hx | hx
        · exact Or.inl (List.mem_append_left _ hx)
        · exact Or.inr hx
      rw [if_pos hx, if_pos hx']
      exact Nat.add_le_add_left ih _
    · rw [if_neg hx]
      by_cases hx' : x ∈ inst ++ [c] ∨ x ∈ fl
      · rw [if_pos hx']
        exact Nat.le_trans (Nat.add_le_add_left ih 0) (by omega)
      · rw [if_neg hx']
        exact Nat.add_le_add_left ih _

theorem pot_le_fl (m : DepMap) (inst fl : List String) (c : String) :
    ∀ V, pot m inst (fl ++ [c]) V ≤ pot m inst fl V := by
  intro V
  induction V with
  | nil => exact Nat.le_refl _
  | cons x V ih =>
    simp only [pot]
    by_cases hx : x ∈ inst ∨ x ∈ fl
    · have hx' : x ∈ inst ∨ x ∈ fl ++ [c] := by
        rcases hx with hx | hx
        · exact Or.inl hx
        · exact Or.inr (List.mem_append_left _ hx)
      rw [if_pos hx, if_pos hx']
      exact Nat.add_le_add_left ih _
    · rw [if_neg hx]
      by_cases hx' : x ∈ inst ∨ x ∈ fl ++ [c]
      · rw [if_pos hx']
        exact Nat.le_trans (Nat.add_le_add_left ih 0) (by omega)
      · rw [if_neg hx']
        exact Nat.add_le_add_left ih _

theorem pot_drop_inst (m : DepMap) (inst fl : List String) (c : String)
    (hci : c ∉ inst) (hcf : c ∉ fl) :
    ∀ V, c ∈ V → pot m (inst ++ [c]) fl V + wdep m c ≤ pot m inst fl V := by
  intro V
  induction V with
  | nil => intro h; cases h
  | cons x V ih =>
    intro hc
    simp only [pot]
    rcases List.mem_cons.mp hc with rfl | hc
    · have hx' : c ∈ inst ++ [c] ∨ c ∈ fl :=
        Or.inl (List.mem_append_right _ (List.mem_singleton.mpr rfl))
      rw [if_pos hx', if_neg (by tauto : ¬(c ∈ inst ∨ c ∈ fl))]
      have := pot_le_inst m inst fl c V
      omega
    · have h2 := ih hc
      by_cases hx : x ∈ inst ∨ x ∈ fl
      · have hx' : x ∈ inst ++ [c] ∨ x ∈ fl := by
          rcases hx with hx | hx
          · exact Or.inl (List.mem_append_left _ hx)
          · exact Or.inr hx
        rw [if_pos hx, if_pos hx']
        omega
      · rw [if_neg hx]
        by_cases hx' : x ∈ inst ++ [c] ∨ x ∈ fl
        · rw [if_pos hx']; omega
        · rw [if_neg hx']; omega

theorem pot_drop_fl (m : DepMap) (inst fl : List String) (c : String)
    (hci : c ∉ inst) (hcf : c ∉ fl) :
    ∀ V, c ∈ V → pot m inst (fl ++ [c]) V + wdep m c ≤ pot m inst fl V := by
  intro V
  induction V with
  | nil => intro h; cases h
  | cons x V ih =>
    intro hc
    simp only [pot]
    rcases List.mem_cons.mp hc with rfl | hc
    · have hx' : c ∈ inst ∨ c ∈ fl ++ [c] :=
        Or.inr (List.mem_append_right _ (List.mem_singleton.mpr rfl))
      rw [if_pos hx', if_neg (by tauto : ¬(c ∈ inst ∨ c ∈ fl))]
      have := pot_le_fl m inst fl c V
      omega
    · have h2 := ih hc
      by_cases hx : x ∈ inst ∨ x ∈ fl
      · have hx' : x ∈ inst ∨ x ∈ fl ++ [c] := by
          rcases hx with hx | hx
          · exact Or.inl hx
          · exact Or.inr (List.mem_append_left _ hx)
        rw [if_pos hx, if_pos hx']
        omega
      · rw [if_neg hx]
        by_cases hx' : x ∈ inst ∨ x ∈ fl ++ [c]
        · rw [if_pos hx']; omega
        · rw [if_neg hx']; omega

theorem msr_procOne_lt {σ : Type} (m : DepMap) (step : σ → String → InstallResult × σ)
    (V : List String) (st : St σ) (c : String) (rest : List String)
    (hq : st.queue = c :: rest) (hcV : c ∈ V) :
    msr m V (procOne m step st c rest) < msr m V st := by
  have hlen : st.queue.length = rest.length + 1 := by rw [hq]; rfl
  by_cases hskip : c ∈ st.installed ∨ c ∈ st.failed
  · rw [procOne_skip m step st c rest hskip]
    simp only [msr]
    omega
  · have hci : c ∉ st.installed := fun h => hskip (Or.inl h)
    have hcf : c ∉ st.failed := fun h => hskip (Or.inr h)
    rcases hstep : step st.env c with ⟨r, e⟩
    cases r with
    | notFound =>
      rw [procOne_notFound m step st c rest e hskip hstep]
      simp only [msr]
      have := pot_le_fl m st.installed st.failed c V
      omega
    | alreadyExists =>
      rw [procOne_alreadyExists m step st c rest e hskip hstep]
      simp only [msr]
      have := pot_le_inst m st.installed st.failed c V
      omega
    | installedOk =>
      rw [procOne_installedOk m step st c rest e hskip hstep]
      simp only [msr]
      have h1 := enqueueDeps_length (st.installed ++ [c]) (depsOf m c) rest
      have h2 := pot_drop_inst m st.installed st.failed c hci hcf V hcV
      simp only [wdep] at h2
      omega
    | copyFailed =>
      rw [procOne_copyFailed m step st c rest e hskip hstep]
      simp only [msr]
      have := pot_le_fl m st.installed st.failed c V
      omega

theorem procOne_queue_mem {σ : Type} (m : DepMap) (step : σ → String → InstallResult × σ)
    (st : St σ) (c : String) (rest : List String) (x : String)
    (hx : x ∈ (procOne m step st c rest).queue) :
    x ∈ rest ∨ x ∈ allDeps m := by
  by_cases hskip : c ∈ st.installed ∨ c ∈ st.failed
  · rw [procOne_skip m step st c rest hskip] at hx
    exact Or.inl hx
  · rcases hstep : step st.env c with ⟨r, e⟩
    cases r with
    | notFound =>
      rw [procOne_notFound m step st c rest e hskip hstep] at hx
      exact Or.inl hx
    | alreadyExists =>
      rw [procOne_alreadyExists m step st c rest e hskip hstep] at hx
      exact Or.inl hx
    | installedOk =>
      rw [procOne_installedOk m step st c rest e hskip hstep] at hx
      rcases enqueueDeps_mem (st.installed ++ [c]) (depsOf m c) rest x hx with h | h
      · exact Or.inl h
      · exact Or.inr (depsOf_sub_allDeps m c x h)
    | copyFailed =>
      rw [procOne_copyFailed m step st c rest e hskip hstep] at hx
      exact Or.inl hx

/-- Sufficient fuel drains the queue: with fuel at least the termination
measure over a candidate list V closed under the dependency map and
containing the current queue, the loop reaches the empty queue. -/
theorem runLoop_drains {σ : Type} (m : DepMap) (step : σ → String → InstallResult × σ)
    (V : List String) (hV : ∀ x, x ∈ allDeps m → x ∈ V) :
    ∀ n (st : St σ), msr m V st ≤ n → (∀ x, x ∈ st.queue → x ∈ V) →
      (runLoop m step n st).queue = [] := by
  intro n
  induction n with
  | zero =>
    intro st hn hQ
    simp only [msr] at hn
    have : st.queue.length = 0 := by omega
    rw [runLoop_zero]
    exact List.length_eq_zero.mp this
  | succ n ih =>
    intro st hn hQ
    rcases hq : st.queue with _ | ⟨c, rest⟩
    · rw [runLoop_succ_nil m step n st hq]; exact hq
    · rw [runLoop_succ_cons m step n st c rest hq]
      have hcV : c ∈ V := hQ c (by rw [hq]; exact List.mem_cons_self c rest)
      have hlt := msr_procOne_lt m step V st c rest hq hcV
      refine ih (procOne m step st c rest) (by omega) ?_
      intro x hx
      rcases procOne_queue_mem m step st c rest x hx with h | h
      · exact hQ x (by rw [hq]; exact List.mem_cons_of_mem c h)
      · exact hV x h

/-- The fuel chosen by addModel is sufficient: the install queue is empty
when the resolution pass returns. -/
theorem addModel_drains {σ : Type} (m : DepMap) (step : σ → String → InstallResult × σ)
    (requested : List String) (env0 : σ) :
    (addModel m step requested env0).queue = [] := by
  refine runLoop_drains m step (allV m requested)
    (fun x hx => List.mem_append_right _ hx) _ _ (Nat.le_refl _) ?_
  intro x hx
  exact List.mem_append_left _ hx

/-! ### Monotonicity of the installed set, failed set, and log -/

theorem procOne_installed_mono {σ : Type} (m : DepMap)
    (step : σ → String → InstallResult × σ) (st : St σ) (c : String)
    (rest : List String) (x : String) (hx : x ∈ st.installed) :
    x ∈ (procOne m step st c rest).installed := by
  by_cases hskip : c ∈ st.installed ∨ c ∈ st.failed
  · rw [procOne_skip m step st c rest hskip]; exact hx
  · rcases hstep : step st.env c with ⟨r, e⟩
    cases r with
    | notFound => rw [procOne_notFound m step st c rest e hskip hstep]; exact hx
    | alreadyExists =>
      rw [procOne_alreadyExists m step st c rest e hskip hstep]
      exact List.mem_append_left _ hx
    | installedOk =>
      rw [procOne_installedOk m step st c rest e hskip hstep]
      exact List.mem_append_left _ hx
    | copyFailed => rw [procOne_copyFailed m step st c rest e hskip hstep]; exact hx

theorem procOne_failed_mono {σ : Type} (m : DepMap)
    (step : σ → String → InstallResult × σ) (st : St σ) (c : String)
    (rest : List String) (x : String) (hx : x ∈ st.failed) :
    x ∈ (procOne m step st c rest).failed := by
  by_cases hskip : c ∈ st.installed ∨ c ∈ st.failed
  · rw [procOne_skip m step st c rest hskip]; exact hx
  · rcases hstep : step st.env c with ⟨r, e⟩
    cases r with
    | notFound =>
      rw [procOne_notFound m step st c rest e hskip hstep]
      exact List.mem_append_left _ hx
    | alreadyExists => rw [procOne_alreadyExists m step st c rest e hskip hstep]; exact hx
    | installedOk => rw [procOne_installedOk m step st c rest e hskip hstep]; exact hx
    | copyFailed =>
      rw [procOne_copyFailed m step st c rest e hskip hstep]
      exact List.mem_append_left _ hx

theorem procOne_log_mono {σ : Type} (m : DepMap)
    (step : σ → String → InstallResult × σ) (st : St σ) (c : String)
    (rest : List String) (p : String × InstallResult) (hp : p ∈ st.log) :
    p ∈ (procOne m step st c rest).log := by
  by_cases hskip : c ∈ st.installed ∨ c ∈ st.failed
  · rw [procOne_skip m step st c rest hskip]; exact hp
  · rcases hstep : step st.env c with ⟨r, e⟩
    cases r with
    | notFound =>
      rw [procOne_notFound m step st c rest e hskip hstep]
      exact List.mem_append_left _ hp
    | alreadyExists =>
      rw [procOne_alreadyExists m step st c rest e hskip hstep]
      exact List.mem_append_left _ hp
    | installedOk =>
      rw [procOne_installedOk m step st c rest e hskip hstep]
      exact List.mem_append_left _ hp
    | copyFailed =>
      rw [procOne_copyFailed m step st c rest e hskip hstep]
      exact List.mem_append_left _ hp

theorem runLoop_installed_mono {σ : Type} (m : DepMap)
    (step : σ → String → InstallResult × σ) :
    ∀ n (st : St σ) x, x ∈ st.installed → x ∈ (runLoop m step n st).installed := by
  intro n
  induction n with
  | zero => intro st x hx; exact hx
  | succ n ih =>
    intro st x hx
    rcases hq : st.queue with _ | ⟨c, rest⟩
    · rw [runLoop_succ_nil m step n st hq]; exact hx
    · rw [runLoop_succ_cons m step n st c rest hq]
      exact ih _ x (procOne_installed_mono m step st c rest x hx)

theorem runLoop_failed_mono {σ : Type} (m : DepMap)
    (step : σ → String → InstallResult × σ) :
    ∀ n (st : St σ) x, x ∈ st.failed → x ∈ (runLoop m step n st).failed := by
  intro n
  induction n with
  | zero => intro st x hx; exact hx
  | succ n ih =>
    intro st x hx
    rcases hq : st.queue with _ | ⟨c, rest⟩
    · rw [runLoop_succ_nil m step n st hq]; exact hx
    · rw [runLoop_succ_cons m step n st c rest hq]
      exact ih _ x (procOne_failed_mono m step st c rest x hx)

theorem runLoop_log_mono {σ : Type} (m : DepMap)
    (step : σ → String → InstallResult × σ) :
    ∀ n (st : St σ) p, p ∈ st.log → p ∈ (runLoop m step n st).log := by
  intro n
  induction n with
  | zero => intro st p hp; exact hp
  | succ n ih =>
    intro st p hp
    rcases hq : st.queue with _ | ⟨c, rest⟩
    · rw [runLoop_succ_nil m step n st hq]; exact hp
    · rw [runLoop_succ_cons m step n st c rest hq]
      exact ih _ p (procOne_log_mono m step st c rest p hp)

/-- Elements of the remaining queue stay in the queue after one step. -/
theorem procOne_rest_sub {σ : Type} (m : DepMap)
    (step : σ → String → InstallResult × σ) (st : St σ) (c : String)
    (rest : List String) (x : String) (hx : x ∈ rest) :
    x ∈ (procOne m step st c rest).queue := by
  by_cases hskip : c ∈ st.installed ∨ c ∈ st.failed
  · rw [procOne_skip m step st c rest hskip]; exact hx
  · rcases hstep : step st.env c with ⟨r, e⟩
    cases r with
    | notFound => rw [procOne_notFound m step st c rest e hskip hstep]; exact hx
    | alreadyExists => rw [procOne_alreadyExists m step st c rest e hskip hstep]; exact hx
    | installedOk =>
      rw [procOne_installedOk m step st c rest e hskip hstep]
      exact enqueueDeps_queue_sub _ _ rest x hx
    | copyFailed => rw [procOne_copyFailed m step st c rest e hskip hstep]; exact hx

/-- The dequeued component lands in the installed or failed set after one
step of the loop. -/
theorem procOne_head_done {σ : Type} (m : DepMap)
    (step : σ → String → InstallResult × σ) (st : St σ) (c : String)
    (rest : List String) :
    c ∈ (procOne m step st c rest).installed ∨
      c ∈ (procOne m step st c rest).failed := by
  by_cases hskip : c ∈ st.installed ∨ c ∈ st.failed
  · rw [procOne_skip m step st c rest hskip]; exact hskip
  · rcases hstep : step st.env c with ⟨r, e⟩
    cases r with
    | notFound =>
      rw [procOne_notFound m step st c rest e hskip hstep]
      exact Or.inr (List.mem_append_right _ (List.mem_singleton.mpr rfl))
    | alreadyExists =>
      rw [procOne_alreadyExists m step st c rest e hskip hstep]
      exact Or.inl (List.mem_append_right _ (List.mem_singleton.mpr rfl))
    | installedOk =>
      rw [procOne_installedOk m step st c rest e hskip hstep]
      exact Or.inl (List.mem_append_right _ (List.mem_singleton.mpr rfl))
    | copyFailed =>
      rw [procOne_copyFailed m step st c rest e hskip hstep]
      exact Or.inr (List.mem_append_right _ (List.mem_singleton.mpr rfl))

/-- Everything sitting in the queue of a state whose run drains ends up in
the installed or failed set of the final state. -/
theorem runLoop_queue_done {σ : Type} (m : DepMap)
    (step : σ → String → InstallResult × σ) :
    ∀ n (st : St σ), (runLoop m step n st).queue = [] →
      ∀ x, x ∈ st.queue →
        x ∈ (runLoop m step n st).installed ∨ x ∈ (runLoop m step n st).failed := by
  intro n
  induction n with
  | zero =>
    intro st hdone x hx
    rw [runLoop_zero] at hdone
    rw [runLoop_zero]
    rw [hdone] at hx
    cases hx
  | succ n ih =>
    intro st hdone x hx
    rcases hq : st.queue with _ | ⟨c, rest⟩
    · rw [hq] at hx; cases hx
    · rw [runLoop_succ_cons m step n st c rest hq] at hdone ⊢
      rw [hq] at hx
      rcases List.mem_cons.mp hx with rfl | hx
      · rcases procOne_head_done m step st x rest with h | h
        · exact Or.inl (runLoop_installed_mono m step n _ x h)
        · exact Or.inr (runLoop_failed_mono m step n _ x h)
      · exact ih _ hdone x (procOne_rest_sub m step st c rest x hx)

/-! ### The loop invariant -/

theorem mem_log_names {log : List (String × InstallResult)} {c : String} :
    c ∈ log.map Prod.fst ↔ ∃ r, (c, r) ∈ log := by
  constructor
  · intro h
    rcases List.mem_map.mp h with ⟨⟨a, r⟩, hp, he⟩
    exact ⟨r, by simpa using (show a = c from he) ▸ hp⟩
  · rintro ⟨r, hp⟩
    exact List.mem_map.mpr ⟨(c, r), hp, rfl⟩

theorem nodup_append_single {α : Type} (l : List α) (a : α)
    (h : l.Nodup) (ha : a ∉ l) : (l ++ [a]).Nodup :=
  List.Nodup.append h (List.nodup_singleton a)
    (fun _ hx hxa => ha ((List.mem_singleton.mp hxa) ▸ hx))

theorem initSt_ginv {σ : Type} (m : DepMap) (requested : List String) (env0 : σ) :
    GInv m (initSt requested env0) := by
  refine ⟨?_, ?_, ?_, ?_, ?_, ?_⟩
  · intro c hc; cases hc
  · exact List.nodup_nil
  · intro c hc; cases hc
  · intro c hc; cases hc
  · intro c hc; cases hc
  · intro c r hc; cases hc

theorem procOne_ginv {σ : Type} (m : DepMap)
    (step : σ → String → InstallResult × σ) (st : St σ) (c : String)
    (rest : List String) (hq : st.queue = c :: rest) (hg : GInv m st) :
    GInv m (procOne m step st c rest) := by
  have hcNotLogged : ¬(c ∈ st.installed ∨ c ∈ st.failed) →
      c ∉ st.log.map Prod.fst := by
    intro hskip hcn
    exact hskip (hg.logDone c hcn)
  by_cases hskip : c ∈ st.installed ∨ c ∈ st.failed
  · rw [procOne_skip m step st c rest hskip]
    refine ⟨hg.disj, hg.logNodup, hg.logDone, hg.instLog, hg.flLog, ?_⟩
    intro x r hx hr d hd
    rcases hg.closed x r hx hr d hd with h | h | h
    · exact Or.inl h
    · exact Or.inr (Or.inl h)
    · rw [hq] at h
      rcases List.mem_cons.mp h with rfl | h
      · rcases hskip with h2 | h2
        · exact Or.inl h2
        · exact Or.inr (Or.inl h2)
      · exact Or.inr (Or.inr h)
  · have hci : c ∉ st.installed := fun h => hskip (Or.inl h)
    have hcf : c ∉ st.failed := fun h => hskip (Or.inr h)
    have hcl : c ∉ st.log.map Prod.fst := hcNotLogged hskip
    rcases hstep : step st.env c with ⟨r0, e⟩
    cases r0 with
    | notFound =>
      rw [procOne_notFound m step st c rest e hskip hstep]
      refine ⟨?_, ?_, ?_, ?_, ?_, ?_⟩
      · intro x hx hxf
        rcases List.mem_append.mp hxf with h | h
        · exact hg.disj x hx h
        · exact hci ((List.mem_singleton.mp h) ▸ hx)
      · simp only [List.map_append, List.map_cons, List.map_nil]
        exact nodup_append_single _ c hg.logNodup hcl
      · intro x hx
        simp only [List.map_append, List.map_cons, List.map_nil] at hx
        rcases List.mem_append.mp hx with h | h
        · rcases hg.logDone x h with h2 | h2
          · exact Or.inl h2
          · exact Or.inr (List.mem_append_left _ h2)
        · exact Or.inr (List.mem_append_right _ h)
      · intro x hx
        rcases hg.instLog x hx with ⟨r, hr, hor⟩
        exact ⟨r, List.mem_append_left _ hr, hor⟩
      · intro x hx
        rcases List.mem_append.mp hx with h | h
        · rcases hg.flLog x h with ⟨r, hr, hor⟩
          exact ⟨r, List.mem_append_left _ hr, hor⟩
        · refine ⟨InstallResult.notFound,
            List.mem_append_right _ ?_, Or.inl rfl⟩
          rw [List.mem_singleton.mp h]
          exact List.mem_singleton.mpr rfl
      · intro x r hx hr d hd
        rcases List.mem_append.mp hx with h | h
        · rcases hg.closed x r h hr d hd with h2 | h2 | h2
          · exact Or.inl h2
          · exact Or.inr (Or.inl (List.mem_append_left _ h2))
          · rw [hq] at h2
            rcases List.mem_cons.mp h2 with rfl | h2
            · exact Or.inr (Or.inl (List.mem_append_right _
                (List.mem_singleton.mpr rfl)))
            · exact Or.inr (Or.inr h2)
        · exfalso
          have := List.mem_singleton.mp h
          rw [hr] at this
          cases this
    | alreadyExists =>
      rw [procOne_alreadyExists m step st c rest e hskip hstep]
      refine ⟨?_, ?_, ?_, ?_, ?_, ?_⟩
      · intro x hx hxf
        rcases List.mem_append.mp hx with h | h
        · exact hg.disj x h hxf
        · exact hcf ((List.mem_singleton.mp h) ▸ hxf)
      · simp only [List.map_append, List.map_cons, List.map_nil]
        exact nodup_append_single _ c hg.logNodup hcl
      · intro x hx
        simp only [List.map_append, List.map_cons, List.map_nil] at hx
        rcases List.mem_append.mp hx with h | h
        · rcases hg.logDone x h with h2 | h2
          · exact Or.inl (List.mem_append_left _ h2)
          · exact Or.inr h2
        · exact Or.inl (List.mem_append_right _ h)
      · intro x hx
        rcases List.mem_append.mp hx with h | h
        · rcases hg.instLog x h with ⟨r, hr, hor⟩
          exact ⟨r, List.mem_append_left _ hr, hor⟩
        · refine ⟨InstallResult.alreadyExists,
            List.mem_append_right _ ?_, Or.inr rfl⟩
          rw [List.mem_singleton.mp h]
          exact List.mem_singleton.mpr rfl
      · intro x hx
        rcases hg.flLog x hx with ⟨r, hr, hor⟩
        exact ⟨r, List.mem_append_left _ hr, hor⟩
      · intro x r hx hr d hd
        rcases List.mem_append.mp hx with h | h
        · rcases hg.closed x r h hr d hd with h2 | h2 | h2
          · exact Or.inl (List.mem_append_left _ h2)
          · exact Or.inr (Or.inl h2)
          · rw [hq] at h2
            rcases List.mem_cons.mp h2 with rfl | h2
            · exact Or.inl (List.mem_append_right _
                (List.mem_singleton.mpr rfl))
            · exact Or.inr (Or.inr h2)
        · exfalso
          have := List.mem_singleton.mp h
          have hre : r = InstallResult.alreadyExists := congrArg Prod.snd this
          rw [hr] at hre
          cases hre
    | installedOk =>
      rw [procOne_installedOk m step st c rest e hskip hstep]
      refine ⟨?_, ?_, ?_, ?_, ?_, ?_⟩
      · intro x hx hxf
        rcases List.mem_append.mp hx with h | h
        · exact hg.disj x h hxf
        · exact hcf ((List.mem_singleton.mp h) ▸ hxf)
      · simp only [List.map_append, List.map_cons, List.map_nil]
        exact nodup_append_single _ c hg.logNodup hcl
      · intro x hx
        simp only [List.map_append, List.map_cons, List.map_nil] at hx
        rcases List.mem_append.mp hx with h | h
        · rcases hg.logDone x h with h2 | h2
          · exact Or.inl (List.mem_append_left _ h2)
          · exact Or.inr h2
        · exact Or.inl (List.mem_append_right _ h)
      · intro x hx
        rcases List.mem_append.mp hx with h | h
        · rcases hg.instLog x h with ⟨r, hr, hor⟩
          exact ⟨r, List.mem_append_left _ hr, hor⟩
        · refine ⟨InstallResult.installedOk,
            List.mem_append_right _ ?_, Or.inl rfl⟩
          rw [List.mem_singleton.mp h]
          exact List.mem_singleton.mpr rfl
      · intro x hx
        rcases hg.flLog x hx with ⟨r, hr, hor⟩
        exact ⟨r, List.mem_append_left _ hr, hor⟩
      · intro x r hx hr d hd
        rcases List.mem_append.mp hx with h | h
        · rcases hg.closed x r h hr d hd with h2 | h2 | h2
          · exact Or.inl (List.mem_append_left _ h2)
          · exact Or.inr (Or.inl h2)
          · rw [hq] at h2
            rcases List.mem_cons.mp h2 with rfl | h2
            · exact Or.inl (List.mem_append_right _
                (List.mem_singleton.mpr rfl))
            · exact Or.inr (Or.inr
                (enqueueDeps_queue_sub _ _ rest _ h2))
        · have hxc : x = c := congrArg Prod.fst (List.mem_singleton.mp h)
          subst hxc
          rcases enqueueDeps_covers (st.installed ++ [x]) (depsOf m x) rest d hd
            with h2 | h2
          · exact Or.inl h2
          · exact Or.inr (Or.inr h2)
    | copyFailed =>
      rw [procOne_copyFailed m step st c rest e hskip hstep]
      refine ⟨?_, ?_, ?_, ?_, ?_, ?_⟩
      · intro x hx hxf
        rcases List.mem_append.mp hxf with h | h
        · exact hg.disj x hx h
        · exact hci ((List.mem_singleton.mp h) ▸ hx)
      · simp only [List.map_append, List.map_cons, List.map_nil]
        exact nodup_append_single _ c hg.logNodup hcl
      · intro x hx
        simp only [List.map_append, List.map_cons, List.map_nil] at hx
        rcases List.mem_append.mp hx with h | h
        · rcases hg.logDone x h with h2 | h2
          · exact Or.inl h2
          · exact Or.inr (List.mem_append_left _ h2)
        · exact Or.inr (List.mem_append_right _ h)
      · intro x hx
        rcases hg.instLog x hx with ⟨r, hr, hor⟩
        exact ⟨r, List.mem_append_left _ hr, hor⟩
      · intro x hx
        rcases List.mem_append.mp hx with h | h
        · rcases hg.flLog x h with ⟨r, hr, hor⟩
          exact ⟨r, List.mem_append_left _ hr, hor⟩
        · refine ⟨InstallResult.copyFailed,
            List.mem_append_right _ ?_, Or.inr rfl⟩
          rw [List.mem_singleton.mp h]
          exact List.mem_singleton.mpr rfl
      · intro x r hx hr d hd
        rcases List.mem_append.mp hx with h | h
        · rcases hg.closed x r h hr d hd with h2 | h2 | h2
          · exact Or.inl h2
          · exact Or.inr (Or.inl (List.mem_append_left _ h2))
          · rw [hq] at h2
            rcases List.mem_cons.mp h2 with rfl | h2
            · exact Or.inr (Or.inl (List.mem_append_right _
                (List.mem_singleton.mpr rfl)))
            · exact Or.inr (Or.inr h2)
        · exfalso
          have := List.mem_singleton.mp h
          have hre : r = InstallResult.copyFailed := congrArg Prod.snd this
          rw [hr] at hre
          cases hre

theorem runLoop_ginv {σ : Type} (m : DepMap)
    (step : σ → String → InstallResult × σ) :
    ∀ n (st : St σ), GInv m st → GInv m (runLoop m step n st) := by
  intro n
  induction n with
  | zero => intro st hg; exact hg
  | succ n ih =>
    intro st hg
    rcases hq : st.queue with _ | ⟨c, rest⟩
    · rw [runLoop_succ_nil m step n st hq]; exact hg
    · rw [runLoop_succ_cons m step n st c rest hq]
      exact ih _ (procOne_ginv m step st c rest hq hg)

theorem addModel_ginv {σ : Type} (m : DepMap)
    (step : σ → String → InstallResult × σ) (requested : List String)
    (env0 : σ) : GInv m (addModel m step requested env0) :=
  runLoop_ginv m step _ _ (initSt_ginv m requested env0)

/-! ### Oracle runs: log outcomes, fail-free runs, reachability invariant -/

theorem procOne_olog (m : DepMap) (o : String → InstallResult) (st : St Unit)
    (c : String) (rest : List String)
    (hlog : ∀ p, p ∈ st.log → p.2 = o p.1) :
    ∀ p, p ∈ (procOne m (oStep o) st c rest).log → p.2 = o p.1 := by
  by_cases hskip : c ∈ st.installed ∨ c ∈ st.failed
  · rw [procOne_skip m (oStep o) st c rest hskip]; exact hlog
  · have hstep : oStep o st.env c = (o c, ()) := rfl
    intro p hp
    cases ho : o c with
    | notFound =>
      rw [procOne_notFound m (oStep o) st c rest () hskip
        (by rw [hstep, ho])] at hp
      rcases List.mem_append.mp hp with h | h
      · exact hlog p h
      · rw [List.mem_singleton.mp h]; simp [ho]
    | alreadyExists =>
      rw [procOne_alreadyExists m (oStep o) st c rest () hskip
        (by rw [hstep, ho])] at hp
      rcases List.mem_append.mp hp with h | h
      · exact hlog p h
      · rw [List.mem_singleton.mp h]; simp [ho]
    | installedOk =>
      rw [procOne_installedOk m (oStep o) st c rest () hskip
        (by rw [hstep, ho])] at hp
      rcases List.mem_append.mp hp with h | h
      · exact hlog p h
      · rw [List.mem_singleton.mp h]; simp [ho]
    | copyFailed =>
      rw [procOne_copyFailed m (oStep o) st c rest () hskip
        (by rw [hstep, ho])] at hp
      rcases List.mem_append.mp hp with h | h
      · exact hlog p h
      · rw [List.mem_singleton.mp h]; simp [ho]

theorem runLoop_olog (m : DepMap) (o : String → InstallResult) :
    ∀ n (st : St Unit), (∀ p, p ∈ st.log → p.2 = o p.1) →
      ∀ p, p ∈ (runLoop m (oStep o) n st).log → p.2 = o p.1 := by
  intro n
  induction n with
  | zero => intro st h; exact h
  | succ n ih =>
    intro st h
    rcases hq : st.queue with _ | ⟨c, rest⟩
    · rw [runLoop_succ_nil m (oStep o) n st hq]; exact h
    · rw [runLoop_succ_cons m (oStep o) n st c rest hq]
      exact ih _ (procOne_olog m o st c rest h)

theorem addO_olog (m : DepMap) (o : String → InstallResult)
    (req : List String) :
    ∀ p, p ∈ (addO m o req).log → p.2 = o p.1 :=
  runLoop_olog m o _ (initSt req ()) (fun p hp => absurd hp (by simp [initSt]))

theorem runLoop_ok_failed (m : DepMap) (o : String → InstallResult)
    (hok : ∀ x, o x = InstallResult.installedOk) :
    ∀ n (st : St Unit), st.failed = [] →
      (runLoop m (oStep o) n st).failed = [] := by
  intro n
  induction n with
  | zero => intro st h; exact h
  | succ n ih =>
    intro st h
    rcases hq : st.queue with _ | ⟨c, rest⟩
    · rw [runLoop_succ_nil m (oStep o) n st hq]; exact h
    · rw [runLoop_succ_cons m (oStep o) n st c rest hq]
      by_cases hskip : c ∈ st.installed ∨ c ∈ st.failed
      · rw [procOne_skip m (oStep o) st c rest hskip]
        exact ih _ h
      · rw [procOne_installedOk m (oStep o) st c rest () hskip
          (by show (o c, ()) = _; rw [hok c])]
        exact ih _ h

theorem procOne_rinv {σ : Type} (m : DepMap) (req : List String)
    (step : σ → String → InstallResult × σ) (st : St σ) (c : String)
    (rest : List String) (hq : st.queue = c :: rest) (hr : RInv m req st) :
    RInv m req (procOne m step st c rest) := by
  obtain ⟨hrq, hri, hrf⟩ := hr
  have hrc : Reach m req c := hrq c (by rw [hq]; exact List.mem_cons_self c rest)
  have hrrest : ∀ x, x ∈ rest → Reach m req x :=
    fun x hx => hrq x (by rw [hq]; exact List.mem_cons_of_mem c hx)
  by_cases hskip : c ∈ st.installed ∨ c ∈ st.failed
  · rw [procOne_skip m step st c rest hskip]
    exact ⟨hrrest, hri, hrf⟩
  · rcases hstep : step st.env c with ⟨r0, e⟩
    cases r0 with
    | notFound =>
      rw [procOne_notFound m step st c rest e hskip hstep]
      refine ⟨hrrest, hri, ?_⟩
      intro x hx
      rcases List.mem_append.mp hx with h | h
      · exact hrf x h
      · exact (List.mem_singleton.mp h) ▸ hrc
    | alreadyExists =>
      rw [procOne_alreadyExists m step st c rest e hskip hstep]
      refine ⟨hrrest, ?_, hrf⟩
      intro x hx
      rcases List.mem_append.mp hx with h | h
      · exact hri x h
      · exact (List.mem_singleton.mp h) ▸ hrc
    | installedOk =>
      rw [procOne_installedOk m step st c rest e hskip hstep]
      refine ⟨?_, ?_, hrf⟩
      · intro x hx
        rcases enqueueDeps_mem _ _ rest x hx with h | h
        · exact hrrest x h
        · exact Reach.step hrc h
      · intro x hx
        rcases List.mem_append.mp hx with h | h
        · exact hri x h
        · exact (List.mem_singleton.mp h) ▸ hrc
    | copyFailed =>
      rw [procOne_copyFailed m step st c rest e hskip hstep]
      refine ⟨hrrest, hri, ?_⟩
      intro x hx
      rcases List.mem_append.mp hx with h | h
      · exact hrf x h
      · exact (List.mem_singleton.mp h) ▸ hrc

theorem runLoop_rinv {σ : Type} (m : DepMap) (req : List String)
    (step : σ → String → InstallResult × σ) :
    ∀ n (st : St σ), RInv m req st → RInv m req (runLoop m step n st) := by
  intro n
  induction n with
  | zero => intro st h; exact h
  | succ n ih =>
    intro st h
    rcases hq : st.queue with _ | ⟨c, rest⟩
    · rw [runLoop_succ_nil m step n st hq]; exact h
    · rw [runLoop_succ_cons m step n st c rest hq]
      exact ih _ (procOne_rinv m req step st c rest hq h)

theorem addModel_rinv {σ : Type} (m : DepMap) (req : List String)
    (step : σ → String → InstallResult × σ) (env0 : σ) :
    RInv m req (addModel m step req env0) := by
  refine runLoop_rinv m req step _ (initSt req env0) ?_
  refine ⟨fun x hx => Reach.base hx, ?_, ?_⟩
  · intro x hx; cases hx
  · intro x hx; cases hx

theorem addModel_queue_done {σ : Type} (m : DepMap)
    (step : σ → String → InstallResult × σ) (req : List String) (env0 : σ) :
    ∀ y, y ∈ req →
      y ∈ (addModel m step req env0).installed ∨
      y ∈ (addModel m step req env0).failed :=
  fun y hy => runLoop_queue_done m step _ (initSt req env0)
    (addModel_drains m step req env0) y hy

/-- Completeness of the walk under an all-success oracle: every component
reachable from the requested set is settled when the queue drains. -/
theorem addO_reach_settled (m : DepMap) (o : String → InstallResult)
    (req : List String) (hok : ∀ x, o x = InstallResult.installedOk) :
    ∀ x, Reach m req x →
      x ∈ (addO m o req).installed ∨ x ∈ (addO m o req).failed := by
  have hg : GInv m (addO m o req) := addModel_ginv m (oStep o) req ()
  have hdone : (addO m o req).queue = [] := addModel_drains m (oStep o) req ()
  have hfl : (addO m o req).failed = [] :=
    runLoop_ok_failed m o hok _ (initSt req ()) rfl
  intro x hx
  induction hx with
  | base hc => exact addModel_queue_done m (oStep o) req () _ hc
  | step h1 h2 ih =>
    rcases ih with h | h
    · obtain ⟨r, hrlog, hror⟩ := hg.instLog _ h
      have hre : r = InstallResult.installedOk := by
        have := addO_olog m o req (_, r) hrlog
        simp only at this
        rw [this, hok]
      rcases hg.closed _ r hrlog hre _ h2 with h3 | h3 | h3
      · exact Or.inl h3
      · exact Or.inr h3
      · rw [hdone] at h3; cases h3
    · rw [hfl] at h; cases h

/-! ### Claim theorems: C1, C4, C9, C6, C2 -/

/-- C1: at every point of the resolution pass (any fuel bound on the loop),
no component name is in both the installed set and the failed set, and the
install attempt has been performed at most once per distinct component
name, however often the name occurs in the requested list or as a
dependency. -/
theorem c1_at_most_once {σ : Type} (m : DepMap)
    (step : σ → String → InstallResult × σ) (requested : List String)
    (env0 : σ) (n : Nat) :
    (∀ c, ¬(c ∈ (runLoop m step n (initSt requested env0)).installed ∧
        c ∈ (runLoop m step n (initSt requested env0)).failed)) ∧
    ((runLoop m step n (initSt requested env0)).log.map Prod.fst).Nodup := by
  have hg := runLoop_ginv m step n (initSt requested env0)
    (initSt_ginv m requested env0)
  exact ⟨fun c h => hg.disj c h.1 h.2, hg.logNodup⟩

/-- C4: for every requested list, every dependency map (cyclic maps
included), and every behaviour of the install attempts, the resolution
pass drains the install queue after finitely many dequeues, and each
component is processed at most once. -/
theorem c4_cycle_termination {σ : Type} (m : DepMap)
    (step : σ → String → InstallResult × σ) (requested : List String)
    (env0 : σ) :
    (addModel m step requested env0).queue = [] ∧
    ((addModel m step requested env0).log.map Prod.fst).Nodup :=
  ⟨addModel_drains m step requested env0,
    (addModel_ginv m step requested env0).logNodup⟩

/-- C9: the resolution pass is deterministic: two runs over the same
requested list, the same dependency map, and pointwise equal install
outcomes produce the same installed set, the same failed set, and process
the same components in the same order with the same outcomes. -/
theorem c9_deterministic (m : DepMap) (req : List String)
    (o₁ o₂ : String → InstallResult) (h : ∀ c, o₁ c = o₂ c) :
    (addO m o₁ req).installed = (addO m o₂ req).installed ∧
    (addO m o₁ req).failed = (addO m o₂ req).failed ∧
    (addO m o₁ req).log = (addO m o₂ req).log := by
  have he : o₁ = o₂ := funext h
  subst he
  exact ⟨rfl, rfl, rfl⟩

/-- Witness for C9 at a concrete input. -/
theorem c9_deterministic_witness :
    (addO COMPONENT_DEPENDENCIES (fun _ => InstallResult.installedOk)
        ["Accordion"]).installed =
      (addO COMPONENT_DEPENDENCIES (fun _ => InstallResult.installedOk)
        ["Accordion"]).installed :=
  (c9_deterministic COMPONENT_DEPENDENCIES ["Accordion"]
    (fun _ => InstallResult.installedOk)
    (fun _ => InstallResult.installedOk) (fun _ => rfl)).1

/-- C6: a requested component whose source does not exist is added to the
failed set and not to the installed set, and processing continues: every
requested component still ends up settled in one of the two sets. -/
theorem c6_source_not_found (m : DepMap) (o : String → InstallResult)
    (req : List String) (c : String) (hc : c ∈ req)
    (hnf : o c = InstallResult.notFound) :
    c ∈ (addO m o req).failed ∧ c ∉ (addO m o req).installed ∧
    (∀ y, y ∈ req →
      y ∈ (addO m o req).installed ∨ y ∈ (addO m o req).failed) := by
  have hg : GInv m (addO m o req) := addModel_ginv m (oStep o) req ()
  have hqd := addModel_queue_done m (oStep o) req ()
  have hninst : c ∉ (addO m o req).installed := by
    intro h
    obtain ⟨r, hrlog, hror⟩ := hg.instLog c h
    have hre : r = o c := addO_olog m o req (c, r) hrlog
    rw [hnf] at hre
    rcases hror with h2 | h2 <;> rw [h2] at hre <;> cases hre
  have hfl : c ∈ (addO m o req).failed := by
    rcases hqd c hc with h | h
    · exact absurd h hninst
    · exact h
  exact ⟨hfl, hninst, hqd⟩

/-- Witness for C6: the spec scenario requested = [Ghost] with no Ghost
source yields Installed = empty and Failed = singleton Ghost. -/
theorem c6_source_not_found_witness :
    "Ghost" ∈ (addO [] noneOracle ["Ghost"]).failed ∧
    (addO [] noneOracle ["Ghost"]).installed = [] ∧
    (addO [] noneOracle ["Ghost"]).failed = ["Ghost"] :=
  ⟨(c6_source_not_found [] noneOracle ["Ghost"] "Ghost"
      (by decide) rfl).1, by decide, by decide⟩

/-- C2 as amended: the union of the installed and failed sets is always
contained in the reachable closure of the requested set, and it equals the
full reachable closure when every install attempt performs a fresh
successful install.  (In general the equality fails: reachable components
behind a failed or already-present component are never enqueued.) -/
theorem c2_closure_amended (m : DepMap) (req : List String)
    (o : String → InstallResult) :
    (∀ x, x ∈ (addO m o req).installed ∨ x ∈ (addO m o req).failed →
      Reach m req x) ∧
    ((∀ c, o c = InstallResult.installedOk) →
      ∀ x, Reach m req x ↔
        (x ∈ (addO m o req).installed ∨ x ∈ (addO m o req).failed)) := by
  have hr : RInv m req (addO m o req) := addModel_rinv m req (oStep o) ()
  constructor
  · intro x hx
    rcases hx with h | h
    · exact hr.2.1 x h
    · exact hr.2.2 x h
  · intro hok x
    constructor
    · exact addO_reach_settled m o req hok x
    · intro hx
      rcases hx with h | h
      · exact hr.2.1 x h
      · exact hr.2.2 x h

/-- Witness for C2 as amended: with the shipped dependency map, requesting
Accordion under an all-success oracle settles the reachable dependency
Collapsible. -/
theorem c2_closure_amended_witness :
    "Collapsible" ∈ (addO COMPONENT_DEPENDENCIES allOkOracle
        ["Accordion"]).installed ∨
    "Collapsible" ∈ (addO COMPONENT_DEPENDENCIES allOkOracle
        ["Accordion"]).failed :=
  (((c2_closure_amended COMPONENT_DEPENDENCIES ["Accordion"] allOkOracle).2
      (fun _ => rfl)) "Collapsible").mp
    (@Reach.step COMPONENT_DEPENDENCIES ["Accordion"] "Accordion"
      "Collapsible" (Reach.base (by decide)) (by decide))

/-- C2 counterexample: with map Ghost depends on B, requested = [Ghost], and
the Ghost source missing, B is reachable from the requested set but ends
up in neither the installed set nor the failed set, so the union of the
two sets is not the reachable closure. -/
theorem c2_closure_counterexample :
    Reach cexMapC2 ["Ghost"] "B" ∧
    "B" ∉ (addO cexMapC2 noneOracle ["Ghost"]).installed ∧
    "B" ∉ (addO cexMapC2 noneOracle ["Ghost"]).failed := by
  refine ⟨@Reach.step cexMapC2 ["Ghost"] "Ghost" "B"
    (Reach.base (by decide)) (by decide), ?_, ?_⟩
  · decide
  · decide

/-! ### Claim theorems: C3, C8, C5 -/

/-- C3 amended: when a dequeued component already exists at the destination
and no overwrite flag is set, it is treated as a success in that it is
added to the installed set, but its dependencies are NOT looked up and
nothing is appended to the install queue: the loop continues with exactly
the remaining queue. -/
theorem c3_already_exists_amended {σ : Type} (m : DepMap)
    (step : σ → String → InstallResult × σ) (st : St σ) (c : String)
    (rest : List String) (e : σ) (n : Nat)
    (hq : st.queue = c :: rest)
    (hskip : ¬(c ∈ st.installed ∨ c ∈ st.failed))
    (hs : step st.env c = (InstallResult.alreadyExists, e)) :
    runLoop m step (n + 1) st =
      runLoop m step n ⟨rest, st.installed ++ [c], st.failed,
        st.log ++ [(c, InstallResult.alreadyExists)], e⟩ ∧
    c ∈ (runLoop m step (n + 1) st).installed := by
  have h1 : runLoop m step (n + 1) st =
      runLoop m step n ⟨rest, st.installed ++ [c], st.failed,
        st.log ++ [(c, InstallResult.alreadyExists)], e⟩ := by
    rw [runLoop_succ_cons m step n st c rest hq,
      procOne_alreadyExists m step st c rest e hskip hs]
  refine ⟨h1, ?_⟩
  rw [h1]
  exact runLoop_installed_mono m step n _ c
    (List.mem_append_right _ (List.mem_singleton.mpr rfl))

/-- Witness for C3 as amended at a concrete input. -/
theorem c3_already_exists_amended_witness :
    runLoop COMPONENT_DEPENDENCIES (oStep existsOracle) 1 (initSt ["A"] ()) =
      runLoop COMPONENT_DEPENDENCIES (oStep existsOracle) 0
        ⟨[], [] ++ ["A"], [], [] ++ [("A", InstallResult.alreadyExists)], ()⟩ ∧
    "A" ∈ (runLoop COMPONENT_DEPENDENCIES (oStep existsOracle) 1
      (initSt ["A"] ())).installed :=
  c3_already_exists_amended COMPONENT_DEPENDENCIES (oStep existsOracle)
    (initSt ["A"] ()) "A" [] () 0 rfl (by decide) rfl

/-- C3 counterexample: component A already exists at the destination (no
overwrite flag); A is counted installed, but its dependency B is never
appended to the install queue, never attempted, and ends the run in
neither set, refuting the claimed on-success dependency enqueue. -/
theorem c3_already_exists_counterexample :
    "B" ∈ depsOf cexMapC3 "A" ∧
    ("A", InstallResult.alreadyExists) ∈ (addO cexMapC3 existsOracle ["A"]).log ∧
    (addO cexMapC3 existsOracle ["A"]).installed = ["A"] ∧
    (addO cexMapC3 existsOracle ["A"]).queue = [] ∧
    "B" ∉ ((addO cexMapC3 existsOracle ["A"]).log.map Prod.fst) ∧
    "B" ∉ (addO cexMapC3 existsOracle ["A"]).installed ∧
    "B" ∉ (addO cexMapC3 existsOracle ["A"]).failed := by
  decide

theorem depsOf_eq_nil_of_no_key (m : DepMap) (c : String)
    (h : ∀ p, p ∈ m → p.1 ≠ c) : depsOf m c = [] := by
  induction m with
  | nil => rfl
  | cons p rest ih =>
    simp only [depsOf]
    rw [if_neg (h p (List.mem_cons_self p rest))]
    exact ih (fun q hq => h q (List.mem_cons_of_mem p hq))

/-- C8: a successfully installed component whose name is not a key of the
dependency map is treated as having no dependencies: the lookup yields the
empty list, nothing is enqueued for it, the loop continues with exactly
the remaining queue, and the component still counts as installed. -/
theorem c8_missing_dep_key {σ : Type} (m : DepMap)
    (step : σ → String → InstallResult × σ) (st : St σ) (c : String)
    (rest : List String) (e : σ) (n : Nat)
    (hq : st.queue = c :: rest)
    (hskip : ¬(c ∈ st.installed ∨ c ∈ st.failed))
    (hkey : ∀ p, p ∈ m → p.1 ≠ c)
    (hs : step st.env c = (InstallResult.installedOk, e)) :
    depsOf m c = [] ∧
    runLoop m step (n + 1) st =
      runLoop m step n ⟨rest, st.installed ++ [c], st.failed,
        st.log ++ [(c, InstallResult.installedOk)], e⟩ := by
  have hnil : depsOf m c = [] := depsOf_eq_nil_of_no_key m c hkey
  refine ⟨hnil, ?_⟩
  rw [runLoop_succ_cons m step n st c rest hq,
    procOne_installedOk m step st c rest e hskip hs, hnil]
  rfl

/-- Witness for C8 at a concrete input: Zed is not a key of the shipped
dependency map. -/
theorem c8_missing_dep_key_witness :
    depsOf COMPONENT_DEPENDENCIES "Zed" = [] ∧
    runLoop COMPONENT_DEPENDENCIES (oStep allOkOracle) 1 (initSt ["Zed"] ()) =
      runLoop COMPONENT_DEPENDENCIES (oStep allOkOracle) 0
        ⟨[], [] ++ ["Zed"], [], [] ++ [("Zed", InstallResult.installedOk)], ()⟩ :=
  c8_missing_dep_key COMPONENT_DEPENDENCIES (oStep allOkOracle)
    (initSt ["Zed"] ()) "Zed" [] () 0 rfl (by decide) (by decide) rfl

/-- C5 amended: processing a failing component appends nothing to the
install queue (its dependencies are never enqueued on its behalf), every
component that was requested, or is a dependency of a component freshly
installed with a successful copy, is still attempted, and no component is
attempted more than once.  (Dependencies of components counted installed
through the already-exists skip are not enqueued; see the counterexample.) -/
theorem c5_failure_isolation_amended (m : DepMap) (o : String → InstallResult) :
    (∀ (st : St Unit) (X : String) (rest : List String) (n : Nat),
      st.queue = X :: rest →
      ¬(X ∈ st.installed ∨ X ∈ st.failed) →
      (o X = InstallResult.notFound ∨ o X = InstallResult.copyFailed) →
      runLoop m (oStep o) (n + 1) st =
        runLoop m (oStep o) n ⟨rest, st.installed, st.failed ++ [X],
          st.log ++ [(X, o X)], ()⟩) ∧
    (∀ (req : List String) (Y : String),
      (Y ∈ req ∨ ∃ c, c ∈ (addO m o req).installed ∧
        o c = InstallResult.installedOk ∧ Y ∈ depsOf m c) →
      Y ∈ ((addO m o req).log.map Prod.fst)) ∧
    (∀ req : List String, ((addO m o req).log.map Prod.fst).Nodup) := by
  refine ⟨?_, ?_, ?_⟩
  · intro st X rest n hq hskip hfail
    rcases hfail with h | h
    · rw [h, runLoop_succ_cons m (oStep o) n st X rest hq,
        procOne_notFound m (oStep o) st X rest () hskip
          (by show (o X, ()) = _; rw [h])]
    · rw [h, runLoop_succ_cons m (oStep o) n st X rest hq,
        procOne_copyFailed m (oStep o) st X rest () hskip
          (by show (o X, ()) = _; rw [h])]
  · intro req Y hY
    have hg : GInv m (addO m o req) := addModel_ginv m (oStep o) req ()
    have hdone : (addO m o req).queue = [] := addModel_drains m (oStep o) req ()
    have settledLogged : ∀ x,
        x ∈ (addO m o req).installed ∨ x ∈ (addO m o req).failed →
        x ∈ ((addO m o req).log.map Prod.fst) := by
      intro x hx
      rcases hx with h | h
      · obtain ⟨r, hr, _⟩ := hg.instLog x h
        exact mem_log_names.mpr ⟨r, hr⟩
      · obtain ⟨r, hr, _⟩ := hg.flLog x h
        exact mem_log_names.mpr ⟨r, hr⟩
    rcases hY with h | ⟨c, hcin, hcok, hdep⟩
    · exact settledLogged Y (addModel_queue_done m (oStep o) req () Y h)
    · obtain ⟨r, hrlog, _⟩ := hg.instLog c hcin
      have hre : r = o c := addO_olog m o req (c, r) hrlog
      rw [hcok] at hre
      rcases hg.closed c r hrlog hre Y hdep with h2 | h2 | h2
      · exact settledLogged Y (Or.inl h2)
      · exact settledLogged Y (Or.inr h2)
      · rw [hdone] at h2; cases h2
  · intro req
    exact (addModel_ginv m (oStep o) req ()).logNodup

/-- Witness for C5 as amended at concrete inputs: processing the failing X
appends nothing to the queue, and Collapsible, a dependency of the freshly
installed Accordion, is still attempted even though X failed. -/
theorem c5_failure_isolation_amended_witness :
    (runLoop COMPONENT_DEPENDENCIES (oStep c5Oracle) 1 (initSt ["X"] ()) =
      runLoop COMPONENT_DEPENDENCIES (oStep c5Oracle) 0
        ⟨[], [], [] ++ ["X"], [] ++ [("X", c5Oracle "X")], ()⟩) ∧
    "Collapsible" ∈ ((addO COMPONENT_DEPENDENCIES c5Oracle
      ["X", "Accordion"]).log.map Prod.fst) :=
  ⟨(c5_failure_isolation_amended COMPONENT_DEPENDENCIES c5Oracle).1
      (initSt ["X"] ()) "X" [] 0 rfl (by decide) (Or.inl (by decide)),
    (c5_failure_isolation_amended COMPONENT_DEPENDENCIES c5Oracle).2.1
      ["X", "Accordion"] "Collapsible"
      (Or.inr ⟨"Accordion", by decide, by decide, by decide⟩)⟩

/-- C5 counterexample: X fails, C is counted a successfully installed
component (already-exists skip, member of the installed set), Y is a
dependency of C, yet Y is never attempted: it appears in no log entry and
in neither set, refuting the claim that any dependency of a successfully
installed component is attempted. -/
theorem c5_failure_isolation_counterexample :
    "X" ∈ (addO cexMapC5 cexOracleC5 ["X", "C"]).failed ∧
    "C" ∈ (addO cexMapC5 cexOracleC5 ["X", "C"]).installed ∧
    "Y" ∈ depsOf cexMapC5 "C" ∧
    "Y" ∉ ((addO cexMapC5 cexOracleC5 ["X", "C"]).log.map Prod.fst) ∧
    "Y" ∉ (addO cexMapC5 cexOracleC5 ["X", "C"]).installed ∧
    "Y" ∉ (addO cexMapC5 cexOracleC5 ["X", "C"]).failed := by
  decide

/-! ### Claim C7: idempotent skip performs no write -/

/-- C7: requesting a component that already exists at the destination,
without the force flag, yields a warned success: the component is counted
in the installed set, the single install attempt is logged with the
already-exists outcome, and the destination filesystem is returned
entirely unchanged (no copy and no import rewrite happens). -/
theorem c7_idempotent_skip (src dest : FS) (m : DepMap) (c : String)
    (files : CompFiles) (hsrc : fsLookup src c = some files)
    (hdest : (fsLookup dest c).isSome = true) :
    (addModel m (fsStep src false) [c] dest).env = dest ∧
    c ∈ (addModel m (fsStep src false) [c] dest).installed ∧
    (addModel m (fsStep src false) [c] dest).log =
      [(c, InstallResult.alreadyExists)] := by
  have hstep : fsStep src false dest c = (InstallResult.alreadyExists, dest) := by
    unfold fsStep
    rw [hsrc]
    dsimp only
    rw [if_pos ⟨hdest, rfl⟩]
  have hF1 : 1 ≤ msr m (allV m [c]) (initSt [c] dest) := by
    simp only [msr, initSt, List.length_cons, List.length_nil]
    omega
  obtain ⟨k, hk⟩ : ∃ k, msr m (allV m [c]) (initSt [c] dest) = k + 1 :=
    ⟨msr m (allV m [c]) (initSt [c] dest) - 1, by omega⟩
  have hrun : addModel m (fsStep src false) [c] dest =
      (⟨[], [] ++ [c], [],
        [] ++ [(c, InstallResult.alreadyExists)], dest⟩ : St FS) := by
    unfold addModel
    rw [hk]
    rw [runLoop_succ_cons m (fsStep src false) k (initSt [c] dest) c [] rfl]
    rw [procOne_alreadyExists m (fsStep src false) (initSt [c] dest) c [] dest
      (by simp [initSt]) hstep]
    exact runLoop_nil m (fsStep src false) k _ rfl
  rw [hrun]
  refine ⟨rfl, ?_, rfl⟩
  simp

/-- Witness for C7 at a concrete filesystem: Button exists both in the
source and at the destination; the run warns, counts Button installed, and
leaves the destination untouched. -/
theorem c7_idempotent_skip_witness :
    (addModel COMPONENT_DEPENDENCIES (fsStep srcDemo false)
      ["Button"] destDemo).env = destDemo ∧
    "Button" ∈ (addModel COMPONENT_DEPENDENCIES (fsStep srcDemo false)
      ["Button"] destDemo).installed ∧
    (addModel COMPONENT_DEPENDENCIES (fsStep srcDemo false)
      ["Button"] destDemo).log = [("Button", InstallResult.alreadyExists)] :=
  c7_idempotent_skip srcDemo destDemo COMPONENT_DEPENDENCIES "Button"
    demoFiles (by decide) (by decide)

/-! ### Matcher characterisations for the import-path rewrite -/

theorem stripLit_sound : ∀ (l s r : List Char), stripLit l s = some r → s = l ++ r := by
  intro l
  induction l with
  | nil =>
    intro s r h
    simp only [stripLit, Option.some.injEq] at h
    rw [List.nil_append]
    exact h
  | cons c l ih =>
    intro s r h
    cases s with
    | nil => simp [stripLit] at h
    | cons d s =>
      simp only [stripLit] at h
      by_cases hd : d = c
      · rw [if_pos hd] at h
        subst hd
        rw [List.cons_append]
        exact congrArg _ (ih s r h)
      · rw [if_neg hd] at h
        cases h

theorem stripLit_complete : ∀ (l r : List Char), stripLit l (l ++ r) = some r := by
  intro l
  induction l with
  | nil => intro r; rfl
  | cons c l ih =>
    intro r
    rw [List.cons_append]
    simp only [stripLit, if_pos rfl]
    exact ih r

theorem stripQuote_sound (s r : List Char) (h : stripQuote s = some r) :
    ∃ q, isQuote q ∧ s = q :: r := by
  cases s with
  | nil => cases h
  | cons c s =>
    simp only [stripQuote] at h
    by_cases hq : isQuote c
    · rw [if_pos hq] at h
      injection h with h
      exact ⟨c, hq, by rw [h]⟩
    · rw [if_neg hq] at h
      cases h

theorem stripQuote_complete (q : Char) (r : List Char) (hq : isQuote q) :
    stripQuote (q :: r) = some r := by
  simp only [stripQuote, if_pos hq]

theorem grabTail_sound : ∀ (s nm r : List Char), grabTail s = some (nm, r) →
    (∀ x, x ∈ nm → ¬ isQuote x) ∧ ∃ q, isQuote q ∧ s = nm ++ q :: r := by
  intro s
  induction s with
  | nil => intro nm r h; cases h
  | cons c s ih =>
    intro nm r h
    simp only [grabTail] at h
    by_cases hq : isQuote c
    · rw [if_pos hq] at h
      injection h with h
      cases h
      exact ⟨fun x hx => absurd hx (List.not_mem_nil x), c, hq, rfl⟩
    · rw [if_neg hq] at h
      cases hg : grabTail s with
      | none => rw [hg] at h; cases h
      | some p =>
        obtain ⟨nm', r'⟩ := p
        rw [hg] at h
        injection h with h
        cases h
        obtain ⟨hnq, q, hqq, hs⟩ := ih nm' r' hg
        refine ⟨?_, q, hqq, by rw [hs, List.cons_append]⟩
        intro x hx
        rcases List.mem_cons.mp hx with rfl | hx
        · exact hq
        · exact hnq x hx

theorem grabTail_complete : ∀ (nm : List Char) (q : Char) (r : List Char),
    (∀ x, x ∈ nm → ¬ isQuote x) → isQuote q →
    grabTail (nm ++ q :: r) = some (nm, r) := by
  intro nm
  induction nm with
  | nil =>
    intro q r _ hq
    rw [List.nil_append]
    simp only [grabTail, if_pos hq]
  | cons c nm ih =>
    intro q r hnq hq
    have hc : ¬ isQuote c := hnq c (List.mem_cons_self c nm)
    have hrec := ih q r (fun x hx => hnq x (List.mem_cons_of_mem c hx)) hq
    rw [List.cons_append]
    simp only [grabTail, if_neg hc, hrec]

theorem grabName_sound (s nm r : List Char) (h : grabName s = some (nm, r)) :
    nm ≠ [] ∧ (∀ x, x ∈ nm → ¬ isQuote x) ∧
    ∃ q, isQuote q ∧ s = nm ++ q :: r := by
  cases s with
  | nil => cases h
  | cons c s =>
    simp only [grabName] at h
    by_cases hq : isQuote c
    · rw [if_pos hq] at h; cases h
    · rw [if_neg hq] at h
      cases hg : grabTail s with
      | none => rw [hg] at h; cases h
      | some p =>
        obtain ⟨nm', r'⟩ := p
        rw [hg] at h
        injection h with h
        cases h
        obtain ⟨hnq, q, hqq, hs⟩ := grabTail_sound s nm' r' hg
        refine ⟨List.cons_ne_nil c nm', ?_, q, hqq, by rw [hs, List.cons_append]⟩
        intro x hx
        rcases List.mem_cons.mp hx with rfl | hx
        · exact hq
        · exact hnq x hx

theorem grabName_complete (nm : List Char) (q : Char) (r : List Char)
    (hne : nm ≠ []) (hnq : ∀ x, x ∈ nm → ¬ isQuote x) (hq : isQuote q) :
    grabName (nm ++ q :: r) = some (nm, r) := by
  cases nm with
  | nil => exact absurd rfl hne
  | cons c nm =>
    have hc : ¬ isQuote c := hnq c (List.mem_cons_self c nm)
    have hrec := grabTail_complete nm q r
      (fun x hx => hnq x (List.mem_cons_of_mem c hx)) hq
    rw [List.cons_append]
    simp only [grabName, if_neg hc, hrec]

theorem tryMatch1_sound (s r : List Char) (h : tryMatch1 s = some r) :
    ∃ q1 q2, isQuote q1 ∧ isQuote q2 ∧
      s = litFrom ++ q1 :: (litLib ++ q2 :: r) := by
  unfold tryMatch1 at h
  cases h1 : stripLit litFrom s with
  | none => simp only [h1] at h; cases h
  | some s1 =>
    simp only [h1] at h
    cases h2 : stripQuote s1 with
    | none => simp only [h2] at h; cases h
    | some s2 =>
      simp only [h2] at h
      cases h3 : stripLit litLib s2 with
      | none => simp only [h3] at h; cases h
      | some s3 =>
        simp only [h3] at h
        obtain ⟨q2, hq2, hs3⟩ := stripQuote_sound s3 r h
        obtain ⟨q1, hq1, hs1⟩ := stripQuote_sound s1 s2 h2
        have e1 := stripLit_sound litFrom s s1 h1
        have e3 := stripLit_sound litLib s2 s3 h3
        exact ⟨q1, q2, hq1, hq2, by rw [e1, hs1, e3, hs3]⟩

theorem tryMatch1_complete (q1 q2 : Char) (r : List Char)
    (hq1 : isQuote q1) (hq2 : isQuote q2) :
    tryMatch1 (litFrom ++ q1 :: (litLib ++ q2 :: r)) = some r := by
  unfold tryMatch1
  rw [stripLit_complete litFrom (q1 :: (litLib ++ q2 :: r))]
  dsimp only
  rw [stripQuote_complete q1 (litLib ++ q2 :: r) hq1]
  dsimp only
  rw [stripLit_complete litLib (q2 :: r)]
  dsimp only
  rw [stripQuote_complete q2 r hq2]

theorem tryMatch1_length (s r : List Char) (h : tryMatch1 s = some r) :
    s.length = r.length + 18 := by
  obtain ⟨q1, q2, _, _, hs⟩ := tryMatch1_sound s r h
  rw [hs]
  simp only [List.length_append, List.length_cons]
  have h5 : litFrom.length = 5 := by decide
  have h11 : litLib.length = 11 := by decide
  omega

theorem tryMatch2_sound (s nm r : List Char) (h : tryMatch2 s = some (nm, r)) :
    nm ≠ [] ∧ (∀ x, x ∈ nm → ¬ isQuote x) ∧
    ∃ q1 q2, isQuote q1 ∧ isQuote q2 ∧
      s = litFrom ++ q1 :: (litUi ++ (nm ++ q2 :: r)) := by
  unfold tryMatch2 at h
  cases h1 : stripLit litFrom s with
  | none => simp only [h1] at h; cases h
  | some s1 =>
    simp only [h1] at h
    cases h2 : stripQuote s1 with
    | none => simp only [h2] at h; cases h
    | some s2 =>
      simp only [h2] at h
      cases h3 : stripLit litUi s2 with
      | none => simp only [h3] at h; cases h
      | some s3 =>
        simp only [h3] at h
        obtain ⟨hne, hnq, q2, hq2, hs3⟩ := grabName_sound s3 nm r h
        obtain ⟨q1, hq1, hs1⟩ := stripQuote_sound s1 s2 h2
        have e1 := stripLit_sound litFrom s s1 h1
        have e3 := stripLit_sound litUi s2 s3 h3
        exact ⟨hne, hnq, q1, q2, hq1, hq2, by rw [e1, hs1, e3, hs3]⟩

theorem tryMatch2_complete (q1 q2 : Char) (nm r : List Char)
    (hq1 : isQuote q1) (hq2 : isQuote q2) (hne : nm ≠ [])
    (hnq : ∀ x, x ∈ nm → ¬ isQuote x) :
    tryMatch2 (litFrom ++ q1 :: (litUi ++ (nm ++ q2 :: r))) = some (nm, r) := by
  unfold tryMatch2
  rw [stripLit_complete litFrom (q1 :: (litUi ++ (nm ++ q2 :: r)))]
  dsimp only
  rw [stripQuote_complete q1 (litUi ++ (nm ++ q2 :: r)) hq1]
  dsimp only
  rw [stripLit_complete litUi (nm ++ q2 :: r)]
  dsimp only
  rw [grabName_complete nm q2 r hne hnq hq2]

theorem tryMatch2_length (s nm r : List Char) (h : tryMatch2 s = some (nm, r)) :
    s.length = nm.length + r.length + 23 := by
  obtain ⟨_, _, q1, q2, _, _, hs⟩ := tryMatch2_sound s nm r h
  rw [hs]
  simp only [List.length_append, List.length_cons]
  have h5 : litFrom.length = 5 := by decide
  have h16 : litUi.length = 16 := by decide
  omega

theorem tryMatch1_nil : tryMatch1 [] = none := by decide

theorem tryMatch2_nil : tryMatch2 [] = none := by decide

theorem rep1_nil : ∀ k, rep1 k [] = [] := by
  intro k
  cases k with
  | zero => rfl
  | succ k => simp [rep1, tryMatch1_nil]

theorem rep2_nil : ∀ k, rep2 k [] = [] := by
  intro k
  cases k with
  | zero => rfl
  | succ k => simp [rep2, tryMatch2_nil]

theorem rep1_fuel : ∀ n m (s : List Char), s.length ≤ n → s.length ≤ m →
    rep1 n s = rep1 m s := by
  intro n
  induction n with
  | zero =>
    intro m s hn _
    have hs : s = [] := List.length_eq_zero.mp (by omega)
    subst hs
    rw [rep1_nil, rep1_nil]
  | succ n ih =>
    intro m s hn hm
    cases m with
    | zero =>
      have hs : s = [] := List.length_eq_zero.mp (by omega)
      subst hs
      rw [rep1_nil, rep1_nil]
    | succ m =>
      cases htm : tryMatch1 s with
      | some r =>
        have hl := tryMatch1_length s r htm
        simp only [rep1, htm]
        rw [ih m r (by omega) (by omega)]
      | none =>
        cases s with
        | nil => rw [rep1_nil, rep1_nil]
        | cons c t =>
          simp only [rep1, htm]
          rw [ih m t (by simp at hn; omega) (by simp at hm; omega)]

theorem rep2_fuel : ∀ n m (s : List Char), s.length ≤ n → s.length ≤ m →
    rep2 n s = rep2 m s := by
  intro n
  induction n with
  | zero =>
    intro m s hn _
    have hs : s = [] := List.length_eq_zero.mp (by omega)
    subst hs
    rw [rep2_nil, rep2_nil]
  | succ n ih =>
    intro m s hn hm
    cases m with
    | zero =>
      have hs : s = [] := List.length_eq_zero.mp (by omega)
      subst hs
      rw [rep2_nil, rep2_nil]
    | succ m =>
      cases htm : tryMatch2 s with
      | some p =>
        obtain ⟨nm, r⟩ := p
        have hl := tryMatch2_length s nm r htm
        simp only [rep2, htm]
        rw [ih m r (by omega) (by omega)]
      | none =>
        cases s with
        | nil => rw [rep2_nil, rep2_nil]
        | cons c t =>
          simp only [rep2, htm]
          rw [ih m t (by simp at hn; omega) (by simp at hm; omega)]

theorem rep1_eq_replace1 (n : Nat) (s : List Char) (h : s.length ≤ n) :
    rep1 n s = replace1 s :=
  rep1_fuel n s.length s h (Nat.le_refl _)

theorem rep2_eq_replace2 (n : Nat) (s : List Char) (h : s.length ≤ n) :
    rep2 n s = replace2 s :=
  rep2_fuel n s.length s h (Nat.le_refl _)

theorem replace1_nil : replace1 [] = [] := rfl

theorem replace2_nil : replace2 [] = [] := rfl

theorem rep1_succ_some (n : Nat) (s r : List Char) (h : tryMatch1 s = some r) :
    rep1 (n + 1) s = repl1 ++ rep1 n r := by
  simp only [rep1, h]

theorem rep1_succ_none_cons (n : Nat) (c : Char) (t : List Char)
    (h : tryMatch1 (c :: t) = none) :
    rep1 (n + 1) (c :: t) = c :: rep1 n t := by
  simp only [rep1, h]

theorem rep2_succ_some (n : Nat) (s nm r : List Char)
    (h : tryMatch2 s = some (nm, r)) :
    rep2 (n + 1) s = repl2 nm ++ rep2 n r := by
  simp only [rep2, h]

theorem rep2_succ_none_cons (n : Nat) (c : Char) (t : List Char)
    (h : tryMatch2 (c :: t) = none) :
    rep2 (n + 1) (c :: t) = c :: rep2 n t := by
  simp only [rep2, h]

theorem replace1_match_eq (s r : List Char) (h : tryMatch1 s = some r) :
    replace1 s = repl1 ++ replace1 r := by
  have hl := tryMatch1_length s r h
  obtain ⟨k, hk⟩ : ∃ k, s.length = k + 1 := ⟨r.length + 17, by omega⟩
  calc replace1 s = rep1 s.length s := rfl
    _ = rep1 (k + 1) s := by rw [hk]
    _ = repl1 ++ rep1 k r := rep1_succ_some k s r h
    _ = repl1 ++ replace1 r := by rw [rep1_eq_replace1 k r (by omega)]

theorem replace1_cons_eq (c : Char) (t : List Char)
    (h : tryMatch1 (c :: t) = none) : replace1 (c :: t) = c :: replace1 t := by
  calc replace1 (c :: t) = rep1 (c :: t).length (c :: t) := rfl
    _ = rep1 (t.length + 1) (c :: t) := by rw [List.length_cons]
    _ = c :: rep1 t.length t := rep1_succ_none_cons t.length c t h
    _ = c :: replace1 t := rfl

theorem replace2_match_eq (s nm r : List Char) (h : tryMatch2 s = some (nm, r)) :
    replace2 s = repl2 nm ++ replace2 r := by
  have hl := tryMatch2_length s nm r h
  obtain ⟨k, hk⟩ : ∃ k, s.length = k + 1 := ⟨nm.length + r.length + 22, by omega⟩
  calc replace2 s = rep2 s.length s := rfl
    _ = rep2 (k + 1) s := by rw [hk]
    _ = repl2 nm ++ rep2 k r := rep2_succ_some k s nm r h
    _ = repl2 nm ++ replace2 r := by rw [rep2_eq_replace2 k r (by omega)]

theorem replace2_cons_eq (c : Char) (t : List Char)
    (h : tryMatch2 (c :: t) = none) : replace2 (c :: t) = c :: replace2 t := by
  calc replace2 (c :: t) = rep2 (c :: t).length (c :: t) := rfl
    _ = rep2 (t.length + 1) (c :: t) := by rw [List.length_cons]
    _ = c :: rep2 t.length t := rep2_succ_none_cons t.length c t h
    _ = c :: replace2 t := rfl

/-! ### Simulation relation lemmas -/

theorem squote_quote : isQuote squote := Or.inl rfl

theorem dquote_quote : isQuote dquote := Or.inr rfl

theorem litFrom_no_quote : ∀ x, x ∈ litFrom → ¬ isQuote x := by decide

theorem litLib_no_quote : ∀ x, x ∈ litLib → ¬ isQuote x := by decide

theorem litUi_no_quote : ∀ x, x ∈ litUi → ¬ isQuote x := by decide

theorem repl1_no_dquote : ∀ x, x ∈ repl1 → x ≠ dquote := by decide

theorem chOk_refl (a : Char) : chOk a a := Or.inl rfl

theorem chOk_quote_iff {a b : Char} (h : chOk a b) : isQuote a ↔ isQuote b := by
  rcases h with h | ⟨h1, h2⟩
  · rw [h]
  · rw [h1, h2]
    exact iff_of_true dquote_quote squote_quote

theorem chOk_eq_of_not_dquote {a b : Char} (h : chOk a b) (ha : a ≠ dquote) :
    b = a := by
  rcases h with h | ⟨h1, _⟩
  · exact h
  · exact absurd h1 ha

theorem chOk_eq_of_not_squote {a b : Char} (h : chOk a b) (hb : b ≠ squote) :
    b = a := by
  rcases h with h | ⟨_, h2⟩
  · exact h
  · exact absurd h2 hb

theorem chOk_to_squote {a : Char} (ha : isQuote a) : chOk a squote := by
  rcases ha with h | h
  · exact Or.inl h.symm
  · exact Or.inr ⟨h, rfl⟩

theorem chOk_nonquote_eq {a b : Char} (h : chOk a b) (ha : ¬ isQuote a) :
    b = a :=
  chOk_eq_of_not_dquote h (fun he => ha (he ▸ dquote_quote))

theorem sim_refl : ∀ u : List Char, Sim u u := by
  intro u
  induction u with
  | nil => exact Sim.nil
  | cons a u ih => exact Sim.cons (chOk_refl a) ih

theorem sim_append {u₁ v₁ u₂ v₂ : List Char} (h1 : Sim u₁ v₁) (h2 : Sim u₂ v₂) :
    Sim (u₁ ++ u₂) (v₁ ++ v₂) := by
  induction h1 with
  | nil => exact h2
  | cons hc _ ih => exact Sim.cons hc ih

theorem sim_length {u v : List Char} (h : Sim u v) : u.length = v.length := by
  induction h with
  | nil => rfl
  | cons _ _ ih => simp [ih]

theorem sim_nil_left {v : List Char} (h : Sim [] v) : v = [] := by
  cases h
  rfl

theorem sim_nil_right {u : List Char} (h : Sim u []) : u = [] := by
  cases h
  rfl

theorem sim_cons_left {a : Char} {u w : List Char} (h : Sim (a :: u) w) :
    ∃ b v, w = b :: v ∧ chOk a b ∧ Sim u v := by
  cases h with
  | cons hc hs => exact ⟨_, _, rfl, hc, hs⟩

theorem sim_cons_right {b : Char} {w v : List Char} (h : Sim w (b :: v)) :
    ∃ a u, w = a :: u ∧ chOk a b ∧ Sim u v := by
  cases h with
  | cons hc hs => exact ⟨_, _, rfl, hc, hs⟩

theorem sim_append_left : ∀ (l u v : List Char), Sim (l ++ u) v →
    ∃ y v₂, v = y ++ v₂ ∧ Sim l y ∧ Sim u v₂ := by
  intro l
  induction l with
  | nil => intro u v h; exact ⟨[], v, rfl, Sim.nil, h⟩
  | cons a l ih =>
    intro u v h
    rw [List.cons_append] at h
    obtain ⟨b, v', hv, hc, hs⟩ := sim_cons_left h
    obtain ⟨y, v₂, hv', hsl, hsu⟩ := ih u v' hs
    exact ⟨b :: y, v₂, by rw [hv, hv', List.cons_append], Sim.cons hc hsl, hsu⟩

theorem sim_append_right : ∀ (l u v : List Char), Sim u (l ++ v) →
    ∃ x u₂, u = x ++ u₂ ∧ Sim x l ∧ Sim u₂ v := by
  intro l
  induction l with
  | nil => intro u v h; exact ⟨[], u, rfl, Sim.nil, h⟩
  | cons b l ih =>
    intro u v h
    rw [List.cons_append] at h
    obtain ⟨a, u', hu, hc, hs⟩ := sim_cons_right h
    obtain ⟨x, u₂, hu', hsl, hsu⟩ := ih u' v hs
    exact ⟨a :: x, u₂, by rw [hu, hu', List.cons_append], Sim.cons hc hsl, hsu⟩

theorem sim_eq_left : ∀ (l y : List Char), (∀ x, x ∈ l → x ≠ dquote) →
    Sim l y → y = l := by
  intro l
  induction l with
  | nil => intro y _ h; exact sim_nil_left h
  | cons a l ih =>
    intro y hnd h
    obtain ⟨b, v, hy, hc, hs⟩ := sim_cons_left h
    have hb : b = a := chOk_eq_of_not_dquote hc (hnd a (List.mem_cons_self a l))
    rw [hy, hb, ih v (fun x hx => hnd x (List.mem_cons_of_mem a hx)) hs]

theorem sim_eq_right : ∀ (l x : List Char), (∀ y, y ∈ l → y ≠ squote) →
    Sim x l → x = l := by
  intro l
  induction l with
  | nil => intro x _ h; exact sim_nil_right h
  | cons b l ih =>
    intro x hns h
    obtain ⟨a, u, hx, hc, hs⟩ := sim_cons_right h
    have hb : b = a := chOk_eq_of_not_squote hc (hns b (List.mem_cons_self b l))
    rw [hx, ← hb, ih u (fun y hy => hns y (List.mem_cons_of_mem b hy)) hs]

/-! ### Match transfer along the simulation -/

theorem no_dquote_of_no_quote {l : List Char}
    (h : ∀ x, x ∈ l → ¬ isQuote x) : ∀ x, x ∈ l → x ≠ dquote :=
  fun x hx hd => h x hx (hd ▸ dquote_quote)

theorem no_squote_of_no_quote {l : List Char}
    (h : ∀ x, x ∈ l → ¬ isQuote x) : ∀ x, x ∈ l → x ≠ squote :=
  fun x hx hs => h x hx (hs ▸ squote_quote)

theorem tryMatch1_sim_fwd {u v u₂ : List Char} (h : Sim u v)
    (hm : tryMatch1 u = some u₂) :
    ∃ v₂, tryMatch1 v = some v₂ ∧ Sim u₂ v₂ := by
  obtain ⟨q1, q2, hq1, hq2, hu⟩ := tryMatch1_sound u u₂ hm
  rw [hu] at h
  obtain ⟨y1, v', hv, hs1, hs2⟩ := sim_append_left litFrom _ v h
  have hy1 : y1 = litFrom :=
    sim_eq_left litFrom y1 (no_dquote_of_no_quote litFrom_no_quote) hs1
  obtain ⟨b1, v'', hv', hc1, hs3⟩ := sim_cons_left hs2
  obtain ⟨y2, v''', hv'', hs4, hs5⟩ := sim_append_left litLib _ v'' hs3
  have hy2 : y2 = litLib :=
    sim_eq_left litLib y2 (no_dquote_of_no_quote litLib_no_quote) hs4
  obtain ⟨b2, v₂, hv''', hc2, hs6⟩ := sim_cons_left hs5
  refine ⟨v₂, ?_, hs6⟩
  rw [hv, hy1, hv', hv'', hy2, hv''']
  exact tryMatch1_complete b1 b2 v₂ ((chOk_quote_iff hc1).mp hq1)
    ((chOk_quote_iff hc2).mp hq2)

theorem tryMatch1_sim_bwd {u v v₂ : List Char} (h : Sim u v)
    (hm : tryMatch1 v = some v₂) :
    ∃ u₂, tryMatch1 u = some u₂ ∧ Sim u₂ v₂ := by
  obtain ⟨q1, q2, hq1, hq2, hv⟩ := tryMatch1_sound v v₂ hm
  rw [hv] at h
  obtain ⟨x1, u', hu, hs1, hs2⟩ := sim_append_right litFrom u _ h
  have hx1 : x1 = litFrom :=
    sim_eq_right litFrom x1 (no_squote_of_no_quote litFrom_no_quote) hs1
  obtain ⟨a1, u'', hu', hc1, hs3⟩ := sim_cons_right hs2
  obtain ⟨x2, u''', hu'', hs4, hs5⟩ := sim_append_right litLib u'' _ hs3
  have hx2 : x2 = litLib :=
    sim_eq_right litLib x2 (no_squote_of_no_quote litLib_no_quote) hs4
  obtain ⟨a2, u₂, hu''', hc2, hs6⟩ := sim_cons_right hs5
  refine ⟨u₂, ?_, hs6⟩
  rw [hu, hx1, hu', hu'', hx2, hu''']
  exact tryMatch1_complete a1 a2 u₂ ((chOk_quote_iff hc1).mpr hq1)
    ((chOk_quote_iff hc2).mpr hq2)

theorem tryMatch2_sim_fwd {u v nm u₂ : List Char} (h : Sim u v)
    (hm : tryMatch2 u = some (nm, u₂)) :
    ∃ v₂, tryMatch2 v = some (nm, v₂) ∧ Sim u₂ v₂ := by
  obtain ⟨hne, hnq, q1, q2, hq1, hq2, hu⟩ := tryMatch2_sound u nm u₂ hm
  rw [hu] at h
  obtain ⟨y1, v', hv, hs1, hs2⟩ := sim_append_left litFrom _ v h
  have hy1 : y1 = litFrom :=
    sim_eq_left litFrom y1 (no_dquote_of_no_quote litFrom_no_quote) hs1
  obtain ⟨b1, v'', hv', hc1, hs3⟩ := sim_cons_left hs2
  obtain ⟨y2, v''', hv'', hs4, hs5⟩ := sim_append_left litUi _ v'' hs3
  have hy2 : y2 = litUi :=
    sim_eq_left litUi y2 (no_dquote_of_no_quote litUi_no_quote) hs4
  obtain ⟨ynm, v4, hv''', hs6, hs7⟩ := sim_append_left nm _ v''' hs5
  have hynm : ynm = nm :=
    sim_eq_left nm ynm (no_dquote_of_no_quote hnq) hs6
  obtain ⟨b2, v₂, hv4, hc2, hs8⟩ := sim_cons_left hs7
  refine ⟨v₂, ?_, hs8⟩
  rw [hv, hy1, hv', hv'', hy2, hv''', hynm, hv4]
  exact tryMatch2_complete b1 b2 nm v₂ ((chOk_quote_iff hc1).mp hq1)
    ((chOk_quote_iff hc2).mp hq2) hne hnq

theorem tryMatch2_sim_bwd {u v nm v₂ : List Char} (h : Sim u v)
    (hm : tryMatch2 v = some (nm, v₂)) :
    ∃ u₂, tryMatch2 u = some (nm, u₂) ∧ Sim u₂ v₂ := by
  obtain ⟨hne, hnq, q1, q2, hq1, hq2, hv⟩ := tryMatch2_sound v nm v₂ hm
  rw [hv] at h
  obtain ⟨x1, u', hu, hs1, hs2⟩ := sim_append_right litFrom u _ h
  have hx1 : x1 = litFrom :=
    sim_eq_right litFrom x1 (no_squote_of_no_quote litFrom_no_quote) hs1
  obtain ⟨a1, u'', hu', hc1, hs3⟩ := sim_cons_right hs2
  obtain ⟨x2, u''', hu'', hs4, hs5⟩ := sim_append_right litUi u'' _ hs3
  have hx2 : x2 = litUi :=
    sim_eq_right litUi x2 (no_squote_of_no_quote litUi_no_quote) hs4
  obtain ⟨xnm, u4, hu''', hs6, hs7⟩ := sim_append_right nm u''' _ hs5
  have hxnm : xnm = nm :=
    sim_eq_right nm xnm (no_squote_of_no_quote hnq) hs6
  obtain ⟨a2, u₂, hu4, hc2, hs8⟩ := sim_cons_right hs7
  refine ⟨u₂, ?_, hs8⟩
  rw [hu, hx1, hu', hu'', hx2, hu''', hxnm, hu4]
  exact tryMatch2_complete a1 a2 nm u₂ ((chOk_quote_iff hc1).mpr hq1)
    ((chOk_quote_iff hc2).mpr hq2) hne hnq

/-! ### The replacements simulate their input and match themselves -/

theorem repl1_append (Y : List Char) :
    repl1 ++ Y = litFrom ++ squote :: (litLib ++ squote :: Y) := by
  simp [repl1]

theorem repl2_append (nm Y : List Char) :
    repl2 nm ++ Y = litFrom ++ squote :: (litUi ++ (nm ++ squote :: Y)) := by
  simp [repl2]

theorem tryMatch1_repl1 (Y : List Char) : tryMatch1 (repl1 ++ Y) = some Y := by
  rw [repl1_append]
  exact tryMatch1_complete squote squote Y squote_quote squote_quote

theorem tryMatch2_repl2 (nm Y : List Char) (hne : nm ≠ [])
    (hnq : ∀ x, x ∈ nm → ¬ isQuote x) :
    tryMatch2 (repl2 nm ++ Y) = some (nm, Y) := by
  rw [repl2_append]
  exact tryMatch2_complete squote squote nm Y squote_quote squote_quote hne hnq

theorem sim_replace1_aux : ∀ n (s : List Char), s.length ≤ n →
    Sim s (replace1 s) := by
  intro n
  induction n with
  | zero =>
    intro s hn
    have hs : s = [] := List.length_eq_zero.mp (by omega)
    subst hs
    rw [replace1_nil]
    exact Sim.nil
  | succ n ih =>
    intro s hn
    cases htm : tryMatch1 s with
    | some r =>
      have hl := tryMatch1_length s r htm
      rw [replace1_match_eq s r htm]
      obtain ⟨q1, q2, hq1, hq2, hs⟩ := tryMatch1_sound s r htm
      rw [hs, repl1_append]
      exact sim_append (sim_refl litFrom)
        (Sim.cons (chOk_to_squote hq1)
          (sim_append (sim_refl litLib)
            (Sim.cons (chOk_to_squote hq2) (ih r (by omega)))))
    | none =>
      cases s with
      | nil => rw [replace1_nil]; exact Sim.nil
      | cons c t =>
        rw [replace1_cons_eq c t htm]
        have hlen : t.length ≤ n := by
          simp only [List.length_cons] at hn
          omega
        exact Sim.cons (chOk_refl c) (ih t hlen)

theorem sim_replace1 (s : List Char) : Sim s (replace1 s) :=
  sim_replace1_aux s.length s (Nat.le_refl _)

theorem sim_replace2_aux : ∀ n (s : List Char), s.length ≤ n →
    Sim s (replace2 s) := by
  intro n
  induction n with
  | zero =>
    intro s hn
    have hs : s = [] := List.length_eq_zero.mp (by omega)
    subst hs
    rw [replace2_nil]
    exact Sim.nil
  | succ n ih =>
    intro s hn
    cases htm : tryMatch2 s with
    | some p =>
      obtain ⟨nm, r⟩ := p
      have hl := tryMatch2_length s nm r htm
      rw [replace2_match_eq s nm r htm]
      obtain ⟨hne, hnq, q1, q2, hq1, hq2, hs⟩ := tryMatch2_sound s nm r htm
      rw [hs, repl2_append]
      exact sim_append (sim_refl litFrom)
        (Sim.cons (chOk_to_squote hq1)
          (sim_append (sim_refl litUi)
            (sim_append (sim_refl nm)
              (Sim.cons (chOk_to_squote hq2) (ih r (by omega))))))
    | none =>
      cases s with
      | nil => rw [replace2_nil]; exact Sim.nil
      | cons c t =>
        rw [replace2_cons_eq c t htm]
        have hlen : t.length ≤ n := by
          simp only [List.length_cons] at hn
          omega
        exact Sim.cons (chOk_refl c) (ih t hlen)

theorem sim_replace2 (s : List Char) : Sim s (replace2 s) :=
  sim_replace2_aux s.length s (Nat.le_refl _)

/-! ### Idempotence of each replacement and fixpoint transfer -/

theorem replace1_idem_aux : ∀ n (s : List Char), s.length ≤ n →
    replace1 (replace1 s) = replace1 s := by
  intro n
  induction n with
  | zero =>
    intro s hn
    have hs : s = [] := List.length_eq_zero.mp (by omega)
    subst hs
    rfl
  | succ n ih =>
    intro s hn
    cases htm : tryMatch1 s with
    | some r =>
      have hl := tryMatch1_length s r htm
      rw [replace1_match_eq s r htm,
        replace1_match_eq (repl1 ++ replace1 r) (replace1 r)
          (tryMatch1_repl1 (replace1 r)),
        ih r (by omega)]
    | none =>
      cases s with
      | nil => rfl
      | cons c t =>
        have hlen : t.length ≤ n := by
          simp only [List.length_cons] at hn
          omega
        have hsim : Sim (c :: t) (c :: replace1 t) :=
          Sim.cons (chOk_refl c) (sim_replace1 t)
        have hnone2 : tryMatch1 (c :: replace1 t) = none := by
          cases hx : tryMatch1 (c :: replace1 t) with
          | none => rfl
          | some w =>
            obtain ⟨u₂, hu, _⟩ := tryMatch1_sim_bwd hsim hx
            rw [htm] at hu
            cases hu
        rw [replace1_cons_eq c t htm,
          replace1_cons_eq c (replace1 t) hnone2, ih t hlen]

theorem replace1_idem (s : List Char) : replace1 (replace1 s) = replace1 s :=
  replace1_idem_aux s.length s (Nat.le_refl _)

theorem replace2_idem_aux : ∀ n (s : List Char), s.length ≤ n →
    replace2 (replace2 s) = replace2 s := by
  intro n
  induction n with
  | zero =>
    intro s hn
    have hs : s = [] := List.length_eq_zero.mp (by omega)
    subst hs
    rfl
  | succ n ih =>
    intro s hn
    cases htm : tryMatch2 s with
    | some p =>
      obtain ⟨nm, r⟩ := p
      have hl := tryMatch2_length s nm r htm
      obtain ⟨hne, hnq, _, _, _, _, _⟩ := tryMatch2_sound s nm r htm
      rw [replace2_match_eq s nm r htm,
        replace2_match_eq (repl2 nm ++ replace2 r) nm (replace2 r)
          (tryMatch2_repl2 nm (replace2 r) hne hnq),
        ih r (by omega)]
    | none =>
      cases s with
      | nil => rfl
      | cons c t =>
        have hlen : t.length ≤ n := by
          simp only [List.length_cons] at hn
          omega
        have hsim : Sim (c :: t) (c :: replace2 t) :=
          Sim.cons (chOk_refl c) (sim_replace2 t)
        have hnone2 : tryMatch2 (c :: replace2 t) = none := by
          cases hx : tryMatch2 (c :: replace2 t) with
          | none => rfl
          | some w =>
            obtain ⟨nm', r'⟩ := w
            obtain ⟨u₂, hu, _⟩ := tryMatch2_sim_bwd hsim hx
            rw [htm] at hu
            cases hu
        rw [replace2_cons_eq c t htm,
          replace2_cons_eq c (replace2 t) hnone2, ih t hlen]

theorem replace2_idem (s : List Char) : replace2 (replace2 s) = replace2 s :=
  replace2_idem_aux s.length s (Nat.le_refl _)

theorem replace1_fix_sim_aux : ∀ n (u v : List Char), u.length ≤ n →
    replace1 u = u → Sim u v → replace1 v = v := by
  intro n
  induction n with
  | zero =>
    intro u v hn _ hsim
    have hu : u = [] := List.length_eq_zero.mp (by omega)
    subst hu
    rw [sim_nil_left hsim]
    rfl
  | succ n ih =>
    intro u v hn hfix hsim
    cases htm : tryMatch1 u with
    | some u₂ =>
      have hl := tryMatch1_length u u₂ htm
      have heq : u = repl1 ++ replace1 u₂ := by
        conv_lhs => rw [← hfix]
        exact replace1_match_eq u u₂ htm
      obtain ⟨q1, q2, hq1, hq2, hP⟩ := tryMatch1_sound u u₂ htm
      have hcomb : litFrom ++ q1 :: (litLib ++ q2 :: u₂) =
          litFrom ++ squote :: (litLib ++ squote :: replace1 u₂) := by
        rw [← hP, ← repl1_append]
        exact heq
      have h1 := List.append_cancel_left hcomb
      have hq1e : q1 = squote := (List.cons.injEq _ _ _ _).mp h1 |>.1
      have h2 := List.append_cancel_left ((List.cons.injEq _ _ _ _).mp h1).2
      have hq2e : q2 = squote := (List.cons.injEq _ _ _ _).mp h2 |>.1
      have hfix2 : replace1 u₂ = u₂ :=
        (((List.cons.injEq _ _ _ _).mp h2).2).symm
      have hrep : u = repl1 ++ u₂ := by
        rw [hP, hq1e, hq2e, ← repl1_append]
      rw [hrep] at hsim
      obtain ⟨y, v₂, hv, hsy, hsv⟩ := sim_append_left repl1 u₂ v hsim
      have hy : y = repl1 := sim_eq_left repl1 y repl1_no_dquote hsy
      have hmv : tryMatch1 v = some v₂ := by
        rw [hv, hy]
        exact tryMatch1_repl1 v₂
      rw [replace1_match_eq v v₂ hmv, hv, hy,
        ih u₂ v₂ (by omega) hfix2 hsv]
    | none =>
      cases u with
      | nil =>
        rw [sim_nil_left hsim]
        rfl
      | cons c t =>
        have hlen : t.length ≤ n := by
          simp only [List.length_cons] at hn
          omega
        have hfix2 : replace1 t = t := by
          have := replace1_cons_eq c t htm
          rw [hfix] at this
          exact (((List.cons.injEq _ _ _ _).mp this).2).symm
        obtain ⟨d, v', hv, hc, hs⟩ := sim_cons_left hsim
        have hnone2 : tryMatch1 v = none := by
          cases hx : tryMatch1 v with
          | none => rfl
          | some w =>
            obtain ⟨u₂, hu, _⟩ := tryMatch1_sim_bwd hsim hx
            rw [htm] at hu
            cases hu
        rw [hv] at hnone2 ⊢
        rw [replace1_cons_eq d v' hnone2, ih t v' hlen hfix2 hs]

theorem replace1_fix_sim (u v : List Char) (hfix : replace1 u = u)
    (hsim : Sim u v) : replace1 v = v :=
  replace1_fix_sim_aux u.length u v (Nat.le_refl _) hfix hsim

/-- The two substitutions applied in sequence (first the lib-utils rewrite,
then the components-ui rewrite) are idempotent at the character-list
level. -/
theorem rewrite_pair_idem (l : List Char) :
    replace2 (replace1 (replace2 (replace1 l))) = replace2 (replace1 l) := by
  have h1 : replace1 (replace1 l) = replace1 l := replace1_idem l
  have hsim : Sim (replace1 l) (replace2 (replace1 l)) :=
    sim_replace2 (replace1 l)
  have h2 : replace1 (replace2 (replace1 l)) = replace2 (replace1 l) :=
    replace1_fix_sim (replace1 l) (replace2 (replace1 l)) h1 hsim
  rw [h2, replace2_idem (replace1 l)]

/-- C10: the import-path rewrite applied to a copied file content is
idempotent: applying the two regex replacements twice yields the same
result as applying them once, each replacement string matching its own
pattern. -/
theorem c10_rewrite_idempotent (s : String) :
    rewriteContent (rewriteContent s) = rewriteContent s :=
  congrArg String.mk (rewrite_pair_idem s.data)
